import Mathlib

/-!
Verification of the time-axis unit generation engine of HyVueGantt
(`src/composables/useTimeaxisUnits.ts`).

The development shallowly embeds the composable and the behaviour of its
date-library collaborator:

* instants are integers counting minutes since 1970-01-01 00:00 (the date
  library is used without time zones, so every day spans 1440 minutes and
  every hour 60);
* the Gregorian civil calendar is realised by Hinnant's `days_from_civil`
  and `civil_from_days` algorithms, which the file proves correct;
* fractional dayjs `diff` values are represented exactly: uniform units as
  integer ratios and the month diff as an explicit numerator/denominator
  pair, with `Math.ceil` of a ratio realised by integer ceiling division;
* the two generation loops are written with explicit fuel, so that all
  definitions compute and termination claims are statable.
-/

set_option maxHeartbeats 1000000

/-- Gregorian leap-year predicate. -/
def isLeap (y : Int) : Bool :=
  decide (y % 4 = 0 ∧ y % 100 ≠ 0 ∨ y % 400 = 0)

/-- Length in days of month `m` (1..12) of year `y`. -/
def monthLen (y m : Int) : Int :=
  if m = 2 then (if isLeap y then 29 else 28)
  else if m = 4 ∨ m = 6 ∨ m = 9 ∨ m = 11 then 30
  else 31

/-- Civil date triple. -/
structure Civil where
  y : Int
  m : Int
  d : Int
deriving DecidableEq, Repr

/-- Year-of-era correction sum used by civilFromDays. -/
def gcorr (doe : Int) : Int := doe - doe / 1460 + doe / 36524 - doe / 146096

/-- Day-of-era at which shifted year-of-era `k` starts. -/
def ys (k : Int) : Int := 365 * k + k / 4 - k / 100

/-- Shifted year (years start in March) of a civil date. -/
def yShift (c : Civil) : Int := if c.m ≤ 2 then c.y - 1 else c.y

/-- Shifted month index (March = 0 .. February = 11). -/
def mShift (m : Int) : Int := if 2 < m then m - 3 else m + 9

/-- First day-of-shifted-year of shifted month `mp`. -/
def som (mp : Int) : Int := (153 * mp + 2) / 5

/-- Days since 1970-01-01 of a civil date; Hinnant's days_from_civil. -/
def daysFromCivil (c : Civil) : Int :=
  yShift c / 400 * 146097 + (ys (yShift c % 400) + som (mShift c.m) + c.d - 1) - 719468

/-- Day-of-era (within the 400-year cycle) of a day number. -/
def cfdDoe (z : Int) : Int := (z + 719468) % 146097

/-- Year-of-era of a day number. -/
def cfdYoe (z : Int) : Int := gcorr (cfdDoe z) / 365

/-- Day-of-shifted-year of a day number. -/
def cfdDoy (z : Int) : Int := cfdDoe z - ys (cfdYoe z)

/-- Shifted month of a day number. -/
def cfdMp (z : Int) : Int := (5 * cfdDoy z + 2) / 153

/-- Civil date from a day number; Hinnant's civil_from_days. -/
def civilFromDays (z : Int) : Civil :=
  let m : Int := if cfdMp z < 10 then cfdMp z + 3 else cfdMp z - 9
  let d : Int := cfdDoy z - som (cfdMp z) + 1
  let y : Int := cfdYoe z + (z + 719468) / 146097 * 400
  if m ≤ 2 then ⟨y + 1, m, d⟩ else ⟨y, m, d⟩

theorem ediv_chain146096 (x : Int) : x / 146096 = x / 36524 / 4 := by
  have h1 := Int.ediv_add_emod x 36524
  have b1 : 0 ≤ x % 36524 := Int.emod_nonneg x (by norm_num)
  have b2 : x % 36524 < 36524 := Int.emod_lt_of_pos x (by norm_num)
  have h2 := Int.ediv_add_emod (x / 36524) 4
  have b3 : 0 ≤ x / 36524 % 4 := Int.emod_nonneg _ (by norm_num)
  have b4 : x / 36524 % 4 < 4 := Int.emod_lt_of_pos _ (by norm_num)
  have h3 := Int.ediv_add_emod x 146096
  have b5 : 0 ≤ x % 146096 := Int.emod_nonneg x (by norm_num)
  have b6 : x % 146096 < 146096 := Int.emod_lt_of_pos x (by norm_num)
  generalize hq2 : x / 36524 / 4 = q2 at h2 ⊢
  generalize hm2 : x / 36524 % 4 = m2 at h2 b3 b4
  generalize hq1 : x / 36524 = q1 at h1 h2
  generalize hm1 : x % 36524 = m1 at h1 b1 b2
  generalize hq3 : x / 146096 = q3 at h3 ⊢
  generalize hm3 : x % 146096 = m3 at h3 b5 b6
  omega

theorem gcorr_mono_step (doe : Int) :
    gcorr doe ≤ gcorr (doe + 1) := by
  unfold gcorr
  have c1 := ediv_chain146096 doe
  have c2 := ediv_chain146096 (doe + 1)
  rw [c1, c2]
  set q1 := doe / 36524 with h1
  set q2 := (doe + 1) / 36524 with h2
  omega

theorem gcorr_mono_nat (n : Nat) : ∀ a : Int, gcorr a ≤ gcorr (a + n) := by
  induction n with
  | zero => intro a; simp
  | succ n ih =>
    intro a
    have h1 := ih a
    have h2 := gcorr_mono_step (a + n)
    have he : a + ((n + 1 : Nat) : Int) = a + n + 1 := by push_cast; ring
    rw [he]
    exact le_trans h1 h2

theorem gcorr_mono {a b : Int} (h : a ≤ b) : gcorr a ≤ gcorr b := by
  have hb : b = a + ((b - a).toNat : Int) := by omega
  rw [hb]
  exact gcorr_mono_nat _ a

set_option maxRecDepth 8000 in
theorem gcorr_at_ys : ∀ k : Nat, k < 400 →
    gcorr (ys (k : Int)) = 365 * (k : Int) ∧
    ((k : Int) ≤ 398 → gcorr (ys ((k : Int) + 1) - 1) ≤ 365 * (k : Int) + 364) ∧
    ((k : Int) = 399 → gcorr 146096 ≤ 365 * (k : Int) + 364) := by
  decide

/-- Variant of `gcorr_at_ys` for integer year-of-era. -/
theorem gcorr_at_ys' (k : Int) (h0 : 0 ≤ k) (h1 : k ≤ 399) :
    gcorr (ys k) = 365 * k ∧
    (k ≤ 398 → gcorr (ys (k + 1) - 1) ≤ 365 * k + 364) ∧
    (k = 399 → gcorr 146096 ≤ 365 * k + 364) := by
  have := gcorr_at_ys k.toNat (by omega)
  have hcast : ((k.toNat : Int)) = k := by omega
  rw [hcast] at this
  exact this

/-- The year-of-era extraction is the unique `k` whose year interval contains `doe`. -/
theorem yoe_unique (doe k : Int) (hk0 : 0 ≤ k) (hk1 : k ≤ 399)
    (hlo : ys k ≤ doe)
    (hhi : (k ≤ 398 → doe < ys (k + 1)) ∧ (k = 399 → doe ≤ 146096)) :
    gcorr doe / 365 = k := by
  obtain ⟨hat, hlast, hfinal⟩ := gcorr_at_ys' k hk0 hk1
  have h1 : 365 * k ≤ gcorr doe := hat ▸ gcorr_mono hlo
  have h2 : gcorr doe ≤ 365 * k + 364 := by
    rcases lt_or_ge k 399 with hk | hk
    · have hx : doe ≤ ys (k + 1) - 1 := by
        have := hhi.1 (by omega)
        omega
      exact le_trans (gcorr_mono hx) (hlast (by omega))
    · have hk' : k = 399 := by omega
      have hx : doe ≤ 146096 := hhi.2 hk'
      have hgf := hfinal hk'
      have := gcorr_mono hx
      omega
  omega

/-- Stage A: for a day-of-era in range, the year-of-era formula lands in range and
    its year interval contains the day. -/
theorem stageA (doe : Int) (h0 : 0 ≤ doe) (h1 : doe < 146097) :
    0 ≤ gcorr doe / 365 ∧ gcorr doe / 365 ≤ 399 ∧
    ys (gcorr doe / 365) ≤ doe ∧
    (gcorr doe / 365 ≤ 398 → doe < ys (gcorr doe / 365 + 1)) ∧
    doe - ys (gcorr doe / 365) ≤ 365 := by
  have hg0 : gcorr 0 = 0 := by unfold gcorr; decide
  have hgmax : gcorr 146096 = 365 * 399 + 364 := by unfold gcorr; decide
  have hb1 : 0 ≤ gcorr doe := hg0 ▸ gcorr_mono h0
  have hb2 : gcorr doe ≤ 365 * 399 + 364 := hgmax ▸ gcorr_mono (by omega : doe ≤ 146096)
  set k := gcorr doe / 365 with hk
  have hk0 : 0 ≤ k := by omega
  have hk1 : k ≤ 399 := by omega
  have hlo : ys k ≤ doe := by
    by_contra hcon
    push_neg at hcon
    rcases eq_or_lt_of_le hk0 with hz | hpos
    · have hys0 : ys 0 = 0 := by unfold ys; decide
      rw [← hz] at hcon
      omega
    · obtain ⟨hat, hlast, _⟩ := gcorr_at_ys' (k - 1) (by omega) (by omega)
      have he : k - 1 + 1 = k := by omega
      rw [he] at hlast
      have hle : doe ≤ ys k - 1 := by omega
      have := le_trans (gcorr_mono hle) (hlast (by omega))
      omega
  have hhi : k ≤ 398 → doe < ys (k + 1) := by
    intro hk398
    by_contra hcon
    push_neg at hcon
    obtain ⟨hat, _, _⟩ := gcorr_at_ys' (k + 1) (by omega) (by omega)
    have := gcorr_mono hcon
    omega
  refine ⟨hk0, hk1, hlo, hhi, ?_⟩
  rcases lt_or_ge k 399 with hklt | hkge
  · have h4 : doe < ys (k + 1) := hhi (by omega)
    have hlen : ys (k + 1) ≤ ys k + 366 := by
      unfold ys
      have c1 : (k + 1) / 4 ≤ k / 4 + 1 := by omega
      have c2 : k / 100 ≤ (k + 1) / 100 := by omega
      omega
    omega
  · have hk' : k = 399 := by omega
    have hv : ys k = 145731 := by rw [hk']; unfold ys; decide
    omega

/-- Bounds for the shifted-month extraction (Stage B). -/
theorem stageB (doy : Int) (h0 : 0 ≤ doy) (h1 : doy ≤ 365) :
    0 ≤ (5 * doy + 2) / 153 ∧ (5 * doy + 2) / 153 ≤ 11 ∧
    som ((5 * doy + 2) / 153) ≤ doy ∧
    ((5 * doy + 2) / 153 ≤ 10 → doy < som ((5 * doy + 2) / 153 + 1)) := by
  unfold som
  omega

/-- Forward round trip: converting a day number to a civil date and back is the identity. -/
theorem daysFromCivil_civilFromDays (z : Int) : daysFromCivil (civilFromDays z) = z := by
  have hdoe : 0 ≤ cfdDoe z ∧ cfdDoe z < 146097 := by unfold cfdDoe; omega
  obtain ⟨hy0, hy1, hylo, hyhi, hybnd⟩ := stageA (cfdDoe z) hdoe.1 hdoe.2
  have hyeq : cfdYoe z = gcorr (cfdDoe z) / 365 := rfl
  rw [← hyeq] at hy0 hy1 hylo hyhi hybnd
  have hdoy0 : 0 ≤ cfdDoy z := by unfold cfdDoy; omega
  have hdoy1 : cfdDoy z ≤ 365 := by unfold cfdDoy; omega
  obtain ⟨hm0, hm1, hmlo, hmhi⟩ := stageB (cfdDoy z) hdoy0 hdoy1
  have hmeq : cfdMp z = (5 * cfdDoy z + 2) / 153 := rfl
  rw [← hmeq] at hm0 hm1 hmlo hmhi
  have hdoyeq : cfdDoy z = cfdDoe z - ys (cfdYoe z) := rfl
  have hera : (z + 719468) / 146097 * 146097 + cfdDoe z = z + 719468 := by
    unfold cfdDoe
    omega
  have hyq : (cfdYoe z + (z + 719468) / 146097 * 400) / 400 = (z + 719468) / 146097 := by
    omega
  have hyr : (cfdYoe z + (z + 719468) / 146097 * 400) % 400 = cfdYoe z := by
    omega
  unfold civilFromDays
  rcases lt_or_ge (cfdMp z) 10 with hb | hb
  · rw [if_pos hb, if_neg (by omega : ¬ cfdMp z + 3 ≤ 2)]
    unfold daysFromCivil yShift mShift
    simp only
    rw [if_neg (by omega : ¬ cfdMp z + 3 ≤ 2), if_pos (by omega : 2 < cfdMp z + 3)]
    have e1 : cfdMp z + 3 - 3 = cfdMp z := by ring
    rw [e1, hyq, hyr]
    omega
  · rw [if_neg (by omega : ¬ cfdMp z < 10), if_pos (by omega : cfdMp z - 9 ≤ 2)]
    unfold daysFromCivil yShift mShift
    simp only
    rw [if_pos (by omega : cfdMp z - 9 ≤ 2), if_neg (by omega : ¬ 2 < cfdMp z - 9)]
    have e1 : cfdYoe z + (z + 719468) / 146097 * 400 + 1 - 1
        = cfdYoe z + (z + 719468) / 146097 * 400 := by ring
    have e2 : cfdMp z - 9 + 9 = cfdMp z := by ring
    rw [e1, e2, hyq, hyr]
    omega

/-- Bounds for `ys` on a year-of-era. -/
theorem ys_bounds (k : Int) (h0 : 0 ≤ k) (h1 : k ≤ 399) :
    0 ≤ ys k ∧ ys k ≤ 145731 ∧ ys k + 365 ≤ ys (k + 1) ∧ ys (k + 1) ≤ ys k + 366 := by
  unfold ys
  omega

set_option maxRecDepth 2000 in
/-- The shifted-month extraction inverts `som`. -/
theorem mp_of_som : ∀ ms : Nat, ms < 12 → (5 * som (ms : Int) + 2) / 153 = (ms : Int) := by
  decide

/-- Variant for integer shifted months. -/
theorem mp_of_som' (ms : Int) (h0 : 0 ≤ ms) (h1 : ms ≤ 11) :
    (5 * som ms + 2) / 153 = ms := by
  have := mp_of_som ms.toNat (by omega)
  have hcast : ((ms.toNat : Int)) = ms := by omega
  rw [hcast] at this
  exact this

/-- `som` is monotone with positive steps on the shifted months. -/
theorem som_facts (ms : Int) (h0 : 0 ≤ ms) (h1 : ms ≤ 11) :
    0 ≤ som ms ∧ som ms ≤ 337 ∧ som ms < som (ms + 1) ∧ som (ms + 1) ≤ som ms + 31 := by
  unfold som
  omega

/-- Inverse round trip on first-of-month civil dates. -/
theorem civilFromDays_daysFromCivil_first (y m : Int) (hm1 : 1 ≤ m) (hm2 : m ≤ 12) :
    civilFromDays (daysFromCivil ⟨y, m, 1⟩) = ⟨y, m, 1⟩ := by
  have hms0 : 0 ≤ mShift m := by unfold mShift; omega
  have hms1 : mShift m ≤ 11 := by unfold mShift; omega
  obtain ⟨hs0, hs1, hs2, hs3⟩ := som_facts (mShift m) hms0 hms1
  have hmp := mp_of_som' (mShift m) hms0 hms1
  have hw0 : 0 ≤ yShift ⟨y, m, 1⟩ % 400 := by omega
  have hw1 : yShift ⟨y, m, 1⟩ % 400 ≤ 399 := by omega
  obtain ⟨hy0, hy1, hy2, hy3⟩ := ys_bounds _ hw0 hw1
  have hys399 : ys 399 = 145731 := by unfold ys; decide
  have hz : daysFromCivil ⟨y, m, 1⟩ + 719468 =
      yShift ⟨y, m, 1⟩ / 400 * 146097 + (ys (yShift ⟨y, m, 1⟩ % 400) + som (mShift m)) := by
    unfold daysFromCivil
    ring
  have hdoe : cfdDoe (daysFromCivil ⟨y, m, 1⟩)
      = ys (yShift ⟨y, m, 1⟩ % 400) + som (mShift m) := by
    unfold cfdDoe
    omega
  have hera : (daysFromCivil ⟨y, m, 1⟩ + 719468) / 146097 = yShift ⟨y, m, 1⟩ / 400 := by
    omega
  have hyoe : cfdYoe (daysFromCivil ⟨y, m, 1⟩) = yShift ⟨y, m, 1⟩ % 400 := by
    unfold cfdYoe
    rw [hdoe]
    apply yoe_unique _ _ hw0 hw1
    · omega
    · constructor
      · intro hk
        have hb := (ys_bounds (yShift ⟨y, m, 1⟩ % 400) hw0 hw1).2.2.1
        omega
      · intro hk
        rw [hk]
        omega
  have hdoy : cfdDoy (daysFromCivil ⟨y, m, 1⟩) = som (mShift m) := by
    unfold cfdDoy
    rw [hdoe, hyoe]
    ring
  have hmpv : cfdMp (daysFromCivil ⟨y, m, 1⟩) = mShift m := by
    unfold cfdMp
    rw [hdoy]
    exact hmp
  have hyv : cfdYoe (daysFromCivil ⟨y, m, 1⟩)
      + (daysFromCivil ⟨y, m, 1⟩ + 719468) / 146097 * 400 = yShift ⟨y, m, 1⟩ := by
    rw [hyoe, hera]
    omega
  rcases le_or_lt m 2 with hm2 | hm2
  · have hmsv : mShift m = m + 9 := by unfold mShift; omega
    have hcond : ¬ (cfdMp (daysFromCivil ⟨y, m, 1⟩) < 10) := by rw [hmpv, hmsv]; omega
    have hm' : (if cfdMp (daysFromCivil ⟨y, m, 1⟩) < 10
        then cfdMp (daysFromCivil ⟨y, m, 1⟩) + 3
        else cfdMp (daysFromCivil ⟨y, m, 1⟩) - 9) = m := by
      rw [if_neg hcond, hmpv, hmsv]
      ring
    have hwv : yShift ⟨y, m, 1⟩ = y - 1 := by
      unfold yShift
      simp only
      rw [if_pos hm2]
    unfold civilFromDays
    simp only [hm']
    rw [if_pos hm2]
    have hd' : cfdDoy (daysFromCivil ⟨y, m, 1⟩)
        - som (cfdMp (daysFromCivil ⟨y, m, 1⟩)) + 1 = 1 := by
      rw [hdoy, hmpv]
      ring
    rw [hd']
    rw [hwv] at hyv
    congr 1
    omega
  · have hmsv : mShift m = m - 3 := by unfold mShift; omega
    have hcond : cfdMp (daysFromCivil ⟨y, m, 1⟩) < 10 := by rw [hmpv, hmsv]; omega
    have hm' : (if cfdMp (daysFromCivil ⟨y, m, 1⟩) < 10
        then cfdMp (daysFromCivil ⟨y, m, 1⟩) + 3
        else cfdMp (daysFromCivil ⟨y, m, 1⟩) - 9) = m := by
      rw [if_pos hcond, hmpv, hmsv]
      ring
    have hwv : yShift ⟨y, m, 1⟩ = y := by
      unfold yShift
      simp only
      rw [if_neg (by omega)]
    unfold civilFromDays
    simp only [hm']
    rw [if_neg (by omega)]
    have hd' : cfdDoy (daysFromCivil ⟨y, m, 1⟩)
        - som (cfdMp (daysFromCivil ⟨y, m, 1⟩)) + 1 = 1 := by
      rw [hdoy, hmpv]
      ring
    rw [hd']
    rw [hwv] at hyv
    congr 1

/-! Instants: minutes since 1970-01-01 00:00 (the modelled date library has no
    time zones, so days are uniformly 1440 minutes). -/

/-- Day number of an instant. -/
def dayOf (t : Int) : Int := t / 1440

/-- Minute of day of an instant. -/
def minuteOfDay (t : Int) : Int := t % 1440

/-- Civil date of an instant. -/
def civilOf (t : Int) : Civil := civilFromDays (dayOf t)

/-- Truncation of an instant to the start of its day. -/
def startOfDayI (t : Int) : Int := dayOf t * 1440

/-- Truncation of an instant to the start of its month. -/
def startOfMonthI (t : Int) : Int := daysFromCivil ⟨(civilOf t).y, (civilOf t).m, 1⟩ * 1440

/-- Truncation of an instant to the start of its year. -/
def startOfYearI (t : Int) : Int := daysFromCivil ⟨(civilOf t).y, 1, 1⟩ * 1440

/-- Calendar-correct month addition with day-of-month clamping, dayjs style. -/
def addMonthsI (t n : Int) : Int :=
  let c := civilOf t
  let k := 12 * c.y + (c.m - 1) + n
  let y' := k / 12
  let m' := k % 12 + 1
  let d' := min c.d (monthLen y' m')
  daysFromCivil ⟨y', m', d'⟩ * 1440 + minuteOfDay t

/-- Calendar-correct year addition with day-of-month clamping, dayjs style. -/
def addYearsI (t n : Int) : Int :=
  let c := civilOf t
  let d' := min c.d (monthLen (c.y + n) c.m)
  daysFromCivil ⟨c.y + n, c.m, d'⟩ * 1440 + minuteOfDay t

theorem monthLen_pos (y m : Int) : 1 ≤ monthLen y m := by
  unfold monthLen
  split_ifs <;> omega

/-- Component views of `civilFromDays`. -/
theorem cfd_m (z : Int) :
    (civilFromDays z).m = if cfdMp z < 10 then cfdMp z + 3 else cfdMp z - 9 := by
  unfold civilFromDays
  split_ifs <;> (simp only []; split_ifs <;> simp)

theorem cfd_d (z : Int) :
    (civilFromDays z).d = cfdDoy z - som (cfdMp z) + 1 := by
  unfold civilFromDays
  split_ifs <;> (simp only []; split_ifs <;> simp)

theorem cfd_y (z : Int) :
    (civilFromDays z).y = cfdYoe z + (z + 719468) / 146097 * 400
      + (if (if cfdMp z < 10 then cfdMp z + 3 else cfdMp z - 9) ≤ 2 then 1 else 0) := by
  unfold civilFromDays
  split_ifs <;> (simp only []; split_ifs <;> simp)

/-- Basic bounds of the components of `civilFromDays`. -/
theorem cfd_core_bounds (z : Int) :
    0 ≤ cfdYoe z ∧ cfdYoe z ≤ 399 ∧
    ys (cfdYoe z) ≤ cfdDoe z ∧
    (cfdYoe z ≤ 398 → cfdDoe z < ys (cfdYoe z + 1)) ∧
    0 ≤ cfdDoy z ∧ cfdDoy z ≤ 365 ∧
    0 ≤ cfdMp z ∧ cfdMp z ≤ 11 ∧
    som (cfdMp z) ≤ cfdDoy z ∧
    (cfdMp z ≤ 10 → cfdDoy z < som (cfdMp z + 1)) := by
  have hdoe : 0 ≤ cfdDoe z ∧ cfdDoe z < 146097 := by unfold cfdDoe; omega
  obtain ⟨hy0, hy1, hylo, hyhi, hybnd⟩ := stageA (cfdDoe z) hdoe.1 hdoe.2
  have hyeq : cfdYoe z = gcorr (cfdDoe z) / 365 := rfl
  rw [← hyeq] at hy0 hy1 hylo hyhi hybnd
  have hdoy0 : 0 ≤ cfdDoy z := by unfold cfdDoy; omega
  have hdoy1 : cfdDoy z ≤ 365 := by unfold cfdDoy; omega
  obtain ⟨hm0, hm1, hmlo, hmhi⟩ := stageB (cfdDoy z) hdoy0 hdoy1
  have hmeq : cfdMp z = (5 * cfdDoy z + 2) / 153 := rfl
  rw [← hmeq] at hm0 hm1 hmlo hmhi
  have hdoyeq : cfdDoy z = cfdDoe z - ys (cfdYoe z) := rfl
  exact ⟨hy0, hy1, hylo, hyhi, hdoy0, hdoy1, hm0, hm1, hmlo, hmhi⟩

/-- The month component of any converted day number is a valid month. -/
theorem cfd_m_valid (z : Int) : 1 ≤ (civilFromDays z).m ∧ (civilFromDays z).m ≤ 12 := by
  obtain ⟨_, _, _, _, _, _, hm0, hm1, _, _⟩ := cfd_core_bounds z
  rw [cfd_m]
  split_ifs <;> omega

/-- The shifted year of the first of the month of a converted date. -/
theorem yShift_cfd (z : Int) : yShift ⟨(civilFromDays z).y, (civilFromDays z).m, 1⟩
    = cfdYoe z + (z + 719468) / 146097 * 400 := by
  rw [cfd_y, cfd_m]
  unfold yShift
  simp only
  split_ifs <;> ring

/-- The shifted month of the month of a converted date. -/
theorem mShift_cfd (z : Int) : mShift ((civilFromDays z).m) = cfdMp z := by
  obtain ⟨_, _, _, _, _, _, hm0, hm1, _, _⟩ := cfd_core_bounds z
  rw [cfd_m]
  unfold mShift
  split_ifs <;> omega

/-- Day number of the first of the month of a converted date, in era coordinates. -/
theorem dfc_first_eq (z : Int) :
    daysFromCivil ⟨(civilFromDays z).y, (civilFromDays z).m, 1⟩
    = (z + 719468) / 146097 * 146097 + ys (cfdYoe z) + som (cfdMp z) - 719468 := by
  obtain ⟨hy0, hy1, _, _, _, _, _, _, _, _⟩ := cfd_core_bounds z
  unfold daysFromCivil
  have hm' : (⟨(civilFromDays z).y, (civilFromDays z).m, 1⟩ : Civil).m = (civilFromDays z).m := rfl
  rw [hm', mShift_cfd, yShift_cfd]
  have hq : (cfdYoe z + (z + 719468) / 146097 * 400) / 400 = (z + 719468) / 146097 := by omega
  have hr : (cfdYoe z + (z + 719468) / 146097 * 400) % 400 = cfdYoe z := by omega
  rw [hq, hr]
  ring

/-- The first of the month of a day number is not later than it. -/
theorem monthStart_le_day (z : Int) :
    daysFromCivil ⟨(civilFromDays z).y, (civilFromDays z).m, 1⟩ ≤ z := by
  obtain ⟨_, _, _, _, _, _, _, _, hsom, _⟩ := cfd_core_bounds z
  rw [dfc_first_eq]
  have h1 : cfdDoe z = (z + 719468) % 146097 := rfl
  have h2 : cfdDoy z = cfdDoe z - ys (cfdYoe z) := rfl
  omega

/-- `daysFromCivil` rearranged into era coordinates. -/
theorem dfc_era (c : Civil) : daysFromCivil c
    = yShift c / 400 * 146097 + ys (yShift c % 400) + som (mShift c.m) + c.d - 1 - 719468 := by
  unfold daysFromCivil
  ring

/-- The first of the month after the month of a day number is strictly later than it.
    The successor month is computed through total-month arithmetic as the month
    addition of the modelled date library does. -/
theorem nextMonthStart_gt (z : Int) :
    z < daysFromCivil
      ⟨(12 * (civilFromDays z).y + ((civilFromDays z).m - 1) + 1) / 12,
       (12 * (civilFromDays z).y + ((civilFromDays z).m - 1) + 1) % 12 + 1, 1⟩ := by
  obtain ⟨hy0, hy1, hylo, hyhi, hd0, hd1, hm0, hm1, hsom, hsomhi⟩ := cfd_core_bounds z
  have hdoe0 : 0 ≤ cfdDoe z := by unfold cfdDoe; omega
  have hdoe1 : cfdDoe z < 146097 := by unfold cfdDoe; omega
  have h1 : cfdDoe z = (z + 719468) % 146097 := rfl
  have h2 : cfdDoy z = cfdDoe z - ys (cfdYoe z) := rfl
  rw [dfc_era]
  simp only
  rcases lt_or_ge (cfdMp z) 10 with hc | hc
  · -- months March .. December of the shifted year
    have hm : (civilFromDays z).m = cfdMp z + 3 := by rw [cfd_m, if_pos hc]
    have hy : (civilFromDays z).y = cfdYoe z + (z + 719468) / 146097 * 400 := by
      rw [cfd_y, if_pos hc, if_neg (by omega)]
      ring
    rw [hm, hy]
    rcases le_or_lt (cfdMp z) 8 with hc8 | hc8
    · have hy' : (12 * (cfdYoe z + (z + 719468) / 146097 * 400) + (cfdMp z + 3 - 1) + 1) / 12
          = cfdYoe z + (z + 719468) / 146097 * 400 := by omega
      have hm' : (12 * (cfdYoe z + (z + 719468) / 146097 * 400) + (cfdMp z + 3 - 1) + 1) % 12 + 1
          = cfdMp z + 4 := by omega
      rw [hy', hm']
      have hsv : mShift (cfdMp z + 4) = cfdMp z + 1 := by unfold mShift; rw [if_pos (by omega)]; ring
      have hwv : yShift ⟨cfdYoe z + (z + 719468) / 146097 * 400, cfdMp z + 4, 1⟩
          = cfdYoe z + (z + 719468) / 146097 * 400 := by
        unfold yShift
        simp only
        rw [if_neg (by omega)]
      rw [hsv, hwv]
      have hq : (cfdYoe z + (z + 719468) / 146097 * 400) / 400 = (z + 719468) / 146097 := by omega
      have hr : (cfdYoe z + (z + 719468) / 146097 * 400) % 400 = cfdYoe z := by omega
      rw [hq, hr]
      have := hsomhi (by omega)
      omega
    · -- December: next month is January of the next civil year, same shifted year
      have hc9 : cfdMp z = 9 := by omega
      have hy' : (12 * (cfdYoe z + (z + 719468) / 146097 * 400) + (cfdMp z + 3 - 1) + 1) / 12
          = cfdYoe z + (z + 719468) / 146097 * 400 + 1 := by omega
      have hm' : (12 * (cfdYoe z + (z + 719468) / 146097 * 400) + (cfdMp z + 3 - 1) + 1) % 12 + 1
          = 1 := by omega
      rw [hy', hm']
      have hsv : mShift 1 = 10 := by unfold mShift; rw [if_neg (by omega)]; ring
      have hwv : yShift ⟨cfdYoe z + (z + 719468) / 146097 * 400 + 1, 1, 1⟩
          = cfdYoe z + (z + 719468) / 146097 * 400 := by
        unfold yShift
        simp only
        rw [if_pos (by omega)]
        ring
      rw [hsv, hwv]
      have hq : (cfdYoe z + (z + 719468) / 146097 * 400) / 400 = (z + 719468) / 146097 := by omega
      have hr : (cfdYoe z + (z + 719468) / 146097 * 400) % 400 = cfdYoe z := by omega
      rw [hq, hr]
      have hstep := hsomhi (by omega)
      rw [hc9] at hstep
      have he10 : (9 : Int) + 1 = 10 := by norm_num
      rw [he10] at hstep
      omega
  · -- January or February
    have hnc : ¬ cfdMp z < 10 := by omega
    have hm : (civilFromDays z).m = cfdMp z - 9 := by rw [cfd_m, if_neg hnc]
    have hy : (civilFromDays z).y = cfdYoe z + (z + 719468) / 146097 * 400 + 1 := by
      rw [cfd_y, if_neg hnc]
      have hcond : cfdMp z - 9 ≤ 2 := by omega
      rw [if_pos hcond]
    rw [hm, hy]
    rcases le_or_lt (cfdMp z) 10 with hc10 | hc10
    · -- January: next month is February, same civil year, same shifted year
      have hcv : cfdMp z = 10 := by omega
      have hy' : (12 * (cfdYoe z + (z + 719468) / 146097 * 400 + 1) + (cfdMp z - 9 - 1) + 1) / 12
          = cfdYoe z + (z + 719468) / 146097 * 400 + 1 := by omega
      have hm' : (12 * (cfdYoe z + (z + 719468) / 146097 * 400 + 1) + (cfdMp z - 9 - 1) + 1) % 12 + 1
          = 2 := by omega
      rw [hy', hm']
      have hsv : mShift 2 = 11 := by unfold mShift; rw [if_neg (by omega)]; ring
      have hwv : yShift ⟨cfdYoe z + (z + 719468) / 146097 * 400 + 1, 2, 1⟩
          = cfdYoe z + (z + 719468) / 146097 * 400 := by
        unfold yShift
        simp only
        rw [if_pos (by omega)]
        ring
      rw [hsv, hwv]
      have hq : (cfdYoe z + (z + 719468) / 146097 * 400) / 400 = (z + 719468) / 146097 := by omega
      have hr : (cfdYoe z + (z + 719468) / 146097 * 400) % 400 = cfdYoe z := by omega
      rw [hq, hr]
      have hstep := hsomhi (by omega)
      rw [hcv] at hstep
      have he11 : (10 : Int) + 1 = 11 := by norm_num
      rw [he11] at hstep
      omega
    · -- February: next month is March, the following shifted year
      have hcv : cfdMp z = 11 := by omega
      have hy' : (12 * (cfdYoe z + (z + 719468) / 146097 * 400 + 1) + (cfdMp z - 9 - 1) + 1) / 12
          = cfdYoe z + (z + 719468) / 146097 * 400 + 1 := by omega
      have hm' : (12 * (cfdYoe z + (z + 719468) / 146097 * 400 + 1) + (cfdMp z - 9 - 1) + 1) % 12 + 1
          = 3 := by omega
      rw [hy', hm']
      have hsv : mShift 3 = 0 := by unfold mShift; rw [if_pos (by omega)]; ring
      have hwv : yShift ⟨cfdYoe z + (z + 719468) / 146097 * 400 + 1, 3, 1⟩
          = cfdYoe z + (z + 719468) / 146097 * 400 + 1 := by
        unfold yShift
        simp only
        rw [if_neg (by omega)]
      rw [hsv, hwv]
      have hsom0 : som 0 = 0 := by unfold som; decide
      rcases le_or_lt (cfdYoe z) 398 with hY398 | hY399
      · have hq : (cfdYoe z + (z + 719468) / 146097 * 400 + 1) / 400 = (z + 719468) / 146097 := by
          omega
        have hr : (cfdYoe z + (z + 719468) / 146097 * 400 + 1) % 400 = cfdYoe z + 1 := by omega
        rw [hq, hr]
        have := hyhi hY398
        omega
      · have hYv : cfdYoe z = 399 := by omega
        have hq : (cfdYoe z + (z + 719468) / 146097 * 400 + 1) / 400
            = (z + 719468) / 146097 + 1 := by omega
        have hr : (cfdYoe z + (z + 719468) / 146097 * 400 + 1) % 400 = 0 := by omega
        rw [hq, hr]
        have hys0 : ys 0 = 0 := by unfold ys; decide
        omega

/-- `som` is monotone. -/
theorem som_mono {a b : Int} (h : a ≤ b) : som a ≤ som b := by
  unfold som
  omega

/-- The first of January of the year of a day number is not later than it. -/
theorem yearStart_le_day (z : Int) :
    daysFromCivil ⟨(civilFromDays z).y, 1, 1⟩ ≤ z := by
  obtain ⟨hy0, hy1, hylo, hyhi, hd0, hd1, hm0, hm1, hsom, hsomhi⟩ := cfd_core_bounds z
  have hdoe0 : 0 ≤ cfdDoe z := by unfold cfdDoe; omega
  have hdoe1 : cfdDoe z < 146097 := by unfold cfdDoe; omega
  have h1 : cfdDoe z = (z + 719468) % 146097 := rfl
  have h2 : cfdDoy z = cfdDoe z - ys (cfdYoe z) := rfl
  have hsom10 : som 10 = 306 := by unfold som; decide
  have hsom11 : som 11 = 337 := by unfold som; decide
  have hys399 : ys 399 = 145731 := by unfold ys; decide
  have hys0 : ys 0 = 0 := by unfold ys; decide
  rw [dfc_era]
  simp only
  have hms1 : mShift 1 = 10 := by unfold mShift; rw [if_neg (by omega)]; ring
  rw [hms1, hsom10]
  rcases lt_or_ge (cfdMp z) 10 with hc | hc
  · -- month March .. December: January 1 lies in the previous shifted year
    have hy : (civilFromDays z).y = cfdYoe z + (z + 719468) / 146097 * 400 := by
      rw [cfd_y, if_pos hc, if_neg (by omega)]
      ring
    rw [hy]
    have hw : yShift ⟨cfdYoe z + (z + 719468) / 146097 * 400, 1, 1⟩
        = cfdYoe z + (z + 719468) / 146097 * 400 - 1 := by
      unfold yShift
      simp only
      rw [if_pos (by omega)]
    rw [hw]
    rcases lt_or_ge 0 (cfdYoe z) with hY | hY
    · have hq : (cfdYoe z + (z + 719468) / 146097 * 400 - 1) / 400 = (z + 719468) / 146097 := by
        omega
      have hr : (cfdYoe z + (z + 719468) / 146097 * 400 - 1) % 400 = cfdYoe z - 1 := by omega
      rw [hq, hr]
      have hstep := (ys_bounds (cfdYoe z - 1) (by omega) (by omega)).2.2.1
      have he : cfdYoe z - 1 + 1 = cfdYoe z := by ring
      rw [he] at hstep
      omega
    · have hYv : cfdYoe z = 0 := by omega
      have hq : (cfdYoe z + (z + 719468) / 146097 * 400 - 1) / 400
          = (z + 719468) / 146097 - 1 := by omega
      have hr : (cfdYoe z + (z + 719468) / 146097 * 400 - 1) % 400 = 399 := by omega
      rw [hq, hr, hys399]
      rw [hYv] at h2
      rw [hys0] at h2
      omega
  · -- January or February: January 1 lies in the same shifted year
    have hnc : ¬ cfdMp z < 10 := by omega
    have hy : (civilFromDays z).y = cfdYoe z + (z + 719468) / 146097 * 400 + 1 := by
      rw [cfd_y, if_neg hnc]
      have hcond : cfdMp z - 9 ≤ 2 := by omega
      rw [if_pos hcond]
    rw [hy]
    have hw : yShift ⟨cfdYoe z + (z + 719468) / 146097 * 400 + 1, 1, 1⟩
        = cfdYoe z + (z + 719468) / 146097 * 400 := by
      unfold yShift
      simp only
      rw [if_pos (by omega)]
      ring
    rw [hw]
    have hq : (cfdYoe z + (z + 719468) / 146097 * 400) / 400 = (z + 719468) / 146097 := by omega
    have hr : (cfdYoe z + (z + 719468) / 146097 * 400) % 400 = cfdYoe z := by omega
    rw [hq, hr]
    have hbr : som 10 ≤ som (cfdMp z) := som_mono hc
    rw [hsom10] at hbr
    omega

/-- The first of January of the year after the year of a day number is strictly later. -/
theorem nextYearStart_gt (z : Int) :
    z < daysFromCivil ⟨(civilFromDays z).y + 1, 1, 1⟩ := by
  obtain ⟨hy0, hy1, hylo, hyhi, hd0, hd1, hm0, hm1, hsom, hsomhi⟩ := cfd_core_bounds z
  have hdoe0 : 0 ≤ cfdDoe z := by unfold cfdDoe; omega
  have hdoe1 : cfdDoe z < 146097 := by unfold cfdDoe; omega
  have h1 : cfdDoe z = (z + 719468) % 146097 := rfl
  have h2 : cfdDoy z = cfdDoe z - ys (cfdYoe z) := rfl
  have hsom10 : som 10 = 306 := by unfold som; decide
  have hys0 : ys 0 = 0 := by unfold ys; decide
  rw [dfc_era]
  simp only
  have hms1 : mShift 1 = 10 := by unfold mShift; rw [if_neg (by omega)]; ring
  rw [hms1, hsom10]
  rcases lt_or_ge (cfdMp z) 10 with hc | hc
  · -- March .. December: next January 1 lies in the same shifted year
    have hy : (civilFromDays z).y = cfdYoe z + (z + 719468) / 146097 * 400 := by
      rw [cfd_y, if_pos hc, if_neg (by omega)]
      ring
    rw [hy]
    have hw : yShift ⟨cfdYoe z + (z + 719468) / 146097 * 400 + 1, 1, 1⟩
        = cfdYoe z + (z + 719468) / 146097 * 400 := by
      unfold yShift
      simp only
      rw [if_pos (by omega)]
      ring
    rw [hw]
    have hq : (cfdYoe z + (z + 719468) / 146097 * 400) / 400 = (z + 719468) / 146097 := by omega
    have hr : (cfdYoe z + (z + 719468) / 146097 * 400) % 400 = cfdYoe z := by omega
    rw [hq, hr]
    have hstep := hsomhi (by omega)
    have hbr : som (cfdMp z + 1) ≤ som 10 := som_mono (by omega)
    rw [hsom10] at hbr
    omega
  · -- January or February: next January 1 lies in the following shifted year
    have hnc : ¬ cfdMp z < 10 := by omega
    have hy : (civilFromDays z).y = cfdYoe z + (z + 719468) / 146097 * 400 + 1 := by
      rw [cfd_y, if_neg hnc]
      have hcond : cfdMp z - 9 ≤ 2 := by omega
      rw [if_pos hcond]
    rw [hy]
    have hw : yShift ⟨cfdYoe z + (z + 719468) / 146097 * 400 + 1 + 1, 1, 1⟩
        = cfdYoe z + (z + 719468) / 146097 * 400 + 1 := by
      unfold yShift
      simp only
      rw [if_pos (by omega)]
      ring
    rw [hw]
    rcases le_or_lt (cfdYoe z) 398 with hY | hY
    · have hq : (cfdYoe z + (z + 719468) / 146097 * 400 + 1) / 400 = (z + 719468) / 146097 := by
        omega
      have hr : (cfdYoe z + (z + 719468) / 146097 * 400 + 1) % 400 = cfdYoe z + 1 := by omega
      rw [hq, hr]
      have := hyhi hY
      omega
    · have hYv : cfdYoe z = 399 := by omega
      have hq : (cfdYoe z + (z + 719468) / 146097 * 400 + 1) / 400
          = (z + 719468) / 146097 + 1 := by omega
      have hr : (cfdYoe z + (z + 719468) / 146097 * 400 + 1) % 400 = 0 := by omega
      rw [hq, hr, hys0]
      omega

theorem startOfDayI_le (t : Int) : startOfDayI t ≤ t ∧ t < startOfDayI t + 1440 := by
  unfold startOfDayI dayOf
  omega

theorem startOfMonthI_le (t : Int) : startOfMonthI t ≤ t := by
  unfold startOfMonthI civilOf dayOf
  have := monthStart_le_day (t / 1440)
  omega

theorem startOfYearI_le (t : Int) : startOfYearI t ≤ t := by
  unfold startOfYearI civilOf dayOf
  have := yearStart_le_day (t / 1440)
  omega

/-- An instant that is the first minute of the first day of its month. -/
def IsMonthStartI (b : Int) : Prop := minuteOfDay b = 0 ∧ (civilOf b).d = 1

theorem isMonthStartI_startOfMonthI (t : Int) : IsMonthStartI (startOfMonthI t) := by
  unfold IsMonthStartI startOfMonthI
  constructor
  · unfold minuteOfDay
    omega
  · unfold civilOf
    have harg : dayOf (daysFromCivil ⟨(civilOf t).y, (civilOf t).m, 1⟩ * 1440)
        = daysFromCivil ⟨(civilOf t).y, (civilOf t).m, 1⟩ := by
      unfold dayOf
      omega
    unfold civilOf at harg
    rw [harg]
    obtain ⟨hm1, hm2⟩ := cfd_m_valid (dayOf t)
    rw [civilFromDays_daysFromCivil_first _ _ hm1 hm2]

theorem addMonthsI_monthStart (b : Int) (h : IsMonthStartI b) :
    b < addMonthsI b 1 ∧ IsMonthStartI (addMonthsI b 1) := by
  obtain ⟨hmin, hd⟩ := h
  have hval : addMonthsI b 1 = daysFromCivil
      ⟨(12 * (civilOf b).y + ((civilOf b).m - 1) + 1) / 12,
       (12 * (civilOf b).y + ((civilOf b).m - 1) + 1) % 12 + 1, 1⟩ * 1440 := by
    unfold addMonthsI
    simp only
    rw [hd, min_eq_left (monthLen_pos _ _), hmin]
    ring
  have hgt := nextMonthStart_gt (dayOf b)
  have hb : b = dayOf b * 1440 := by
    unfold minuteOfDay at hmin
    unfold dayOf
    omega
  constructor
  · rw [hval]
    unfold civilOf at *
    omega
  · unfold IsMonthStartI
    rw [hval]
    constructor
    · unfold minuteOfDay
      omega
    · unfold civilOf
      have harg : dayOf (daysFromCivil
          ⟨(12 * (civilOf b).y + ((civilOf b).m - 1) + 1) / 12,
           (12 * (civilOf b).y + ((civilOf b).m - 1) + 1) % 12 + 1, 1⟩ * 1440)
          = daysFromCivil
          ⟨(12 * (civilOf b).y + ((civilOf b).m - 1) + 1) / 12,
           (12 * (civilOf b).y + ((civilOf b).m - 1) + 1) % 12 + 1, 1⟩ := by
        unfold dayOf
        omega
      unfold civilOf at harg
      rw [harg]
      rw [civilFromDays_daysFromCivil_first _ _ (by omega) (by omega)]

theorem lt_addMonthsI_startOfMonthI (t : Int) : t < addMonthsI (startOfMonthI t) 1 := by
  have hcs : civilOf (startOfMonthI t) = ⟨(civilOf t).y, (civilOf t).m, 1⟩ := by
    unfold startOfMonthI civilOf
    have harg : dayOf (daysFromCivil ⟨(civilOf t).y, (civilOf t).m, 1⟩ * 1440)
        = daysFromCivil ⟨(civilOf t).y, (civilOf t).m, 1⟩ := by
      unfold dayOf
      omega
    unfold civilOf at harg
    rw [harg]
    obtain ⟨hm1, hm2⟩ := cfd_m_valid (dayOf t)
    exact civilFromDays_daysFromCivil_first _ _ hm1 hm2
  have hmin : minuteOfDay (startOfMonthI t) = 0 := by
    unfold startOfMonthI minuteOfDay
    omega
  have hval : addMonthsI (startOfMonthI t) 1 = daysFromCivil
      ⟨(12 * (civilOf t).y + ((civilOf t).m - 1) + 1) / 12,
       (12 * (civilOf t).y + ((civilOf t).m - 1) + 1) % 12 + 1, 1⟩ * 1440 := by
    unfold addMonthsI
    simp only
    rw [hcs]
    simp only
    rw [min_eq_left (monthLen_pos _ _), hmin]
    ring
  rw [hval]
  have hgt := nextMonthStart_gt (dayOf t)
  unfold civilOf at *
  unfold dayOf at *
  omega

theorem lt_addYearsI_startOfYearI (t : Int) : t < addYearsI (startOfYearI t) 1 := by
  have hcs : civilOf (startOfYearI t) = ⟨(civilOf t).y, 1, 1⟩ := by
    unfold startOfYearI civilOf
    have harg : dayOf (daysFromCivil ⟨(civilOf t).y, 1, 1⟩ * 1440)
        = daysFromCivil ⟨(civilOf t).y, 1, 1⟩ := by
      unfold dayOf
      omega
    unfold civilOf at harg
    rw [harg]
    exact civilFromDays_daysFromCivil_first _ _ (by omega) (by omega)
  have hmin : minuteOfDay (startOfYearI t) = 0 := by
    unfold startOfYearI minuteOfDay
    omega
  have hval : addYearsI (startOfYearI t) 1 = daysFromCivil ⟨(civilOf t).y + 1, 1, 1⟩ * 1440 := by
    unfold addYearsI
    simp only
    rw [hcs]
    simp only
    rw [min_eq_left (monthLen_pos _ _), hmin]
    ring
  rw [hval]
  have hgt := nextYearStart_gt (dayOf t)
  unfold civilOf at *
  unfold dayOf at *
  omega

/-! The time units of the chart configuration and the precision state machine,
    from `useTimeaxisUnits.ts`. -/

/-- Base width for time unit elements (in pixels). -/
def BASE_UNIT_WIDTH : Int := 24

/-- Zoom level constraints and defaults. -/
def MAX_ZOOM : Int := 10

/-- Minimum zoom level. -/
def MIN_ZOOM : Int := 1

/-- Default zoom level. -/
def DEFAULT_ZOOM : Int := 3

/-- Cache time-to-live in milliseconds. -/
def CACHE_TTL : Int := 5 * 60 * 1000

/-- The externally configurable base precisions (`TimeUnit` in `src/types`). -/
inductive TimeUnit where
  | hour
  | day
  | date
  | week
  | month
deriving DecidableEq, Repr

/-- Extended time unit type, including upper-row-only granularities. -/
inductive XUnit where
  | hour
  | day
  | date
  | week
  | month
  | year
  | isoWeek
deriving DecidableEq, Repr

/-- Inclusion of the base precisions into the extended units. -/
def toX : TimeUnit → XUnit
  | .hour => .hour
  | .day => .day
  | .date => .date
  | .week => .week
  | .month => .month

/-- Index of a unit in `precisionHierarchy = ["hour", "day", "week", "month"]`;
    `indexOf` yields -1 for `date`, which is absent from the array. -/
def hierIndex : TimeUnit → Int
  | .hour => 0
  | .day => 1
  | .week => 2
  | .month => 3
  | .date => -1

/-- Element access `precisionHierarchy[i]!`; only invoked at indices 0..3. -/
def hierGet : Int → TimeUnit
  | 0 => .hour
  | 1 => .day
  | 2 => .week
  | 3 => .month
  | _ => .hour

/-- `getNextPrecision`: the next coarser precision level. -/
def getNextPrecision (currentPrecision : TimeUnit) : TimeUnit :=
  if hierIndex currentPrecision < 3 then hierGet (hierIndex currentPrecision + 1)
  else currentPrecision

/-- `getPreviousPrecision`: the next finer precision level, floored at the
    configured precision. -/
def getPreviousPrecision (configPrecision currentPrecision : TimeUnit) : TimeUnit :=
  if 0 < hierIndex currentPrecision ∧ hierIndex configPrecision < hierIndex currentPrecision then
    hierGet (hierIndex currentPrecision - 1)
  else currentPrecision

/-- `upperPrecision`: the grouping level above the current precision. -/
def upperPrecision : TimeUnit → XUnit
  | .hour => .day
  | .day => .month
  | .date => .month
  | .week => .month
  | .month => .year

/-- dayjs manipulation units (`ManipulateType`) reachable through `getDayjsUnit`. -/
inductive DUnit where
  | hour
  | day
  | week
  | month
  | year
deriving DecidableEq, Repr

/-- `getDayjsUnit`: maps extended units to dayjs manipulation units. -/
def getDayjsUnit : XUnit → DUnit
  | .hour => .hour
  | .day => .day
  | .date => .day
  | .week => .week
  | .month => .month
  | .year => .year
  | .isoWeek => .week

/-- The state held by one chart instance: configured precision, internal
    precision and zoom level. -/
structure MachineState where
  cfg : TimeUnit
  internal : TimeUnit
  zoom : Int
deriving DecidableEq, Repr

/-- The state of a freshly created instance: internal precision starts at the
    configured precision and the zoom level at the default. -/
def initState (cfg : TimeUnit) : MachineState :=
  ⟨cfg, cfg, DEFAULT_ZOOM⟩

/-- `adjustZoomAndPrecision`: the zoom mutator of the composable. -/
def adjustZoomAndPrecision (increase : Bool) (s : MachineState) : MachineState :=
  if increase then
    if s.zoom = MAX_ZOOM then
      if getPreviousPrecision s.cfg s.internal ≠ s.internal then
        { s with internal := getPreviousPrecision s.cfg s.internal, zoom := MIN_ZOOM }
      else s
    else { s with zoom := s.zoom + 1 }
  else
    if s.zoom = MIN_ZOOM then
      if getNextPrecision s.internal ≠ s.internal then
        { s with internal := getNextPrecision s.internal, zoom := MAX_ZOOM }
      else s
    else { s with zoom := s.zoom - 1 }

/-- External events that mutate the machine: a zoom mutator call, or a change
    of the configured precision (the `watch(configPrecision)` reset). -/
inductive MachineEvent where
  | adjust (increase : Bool)
  | setConfig (p : TimeUnit)

/-- One machine step. -/
def machineStep (s : MachineState) : MachineEvent → MachineState
  | .adjust b => adjustZoomAndPrecision b s
  | .setConfig p => ⟨p, p, DEFAULT_ZOOM⟩

/-- Run a sequence of machine events. -/
def machineRun (s : MachineState) (evs : List MachineEvent) : MachineState :=
  evs.foldl machineStep s

/-- Run a sequence of zoom mutator calls only. -/
def adjustRun (s : MachineState) (evs : List Bool) : MachineState :=
  evs.foldl (fun st b => adjustZoomAndPrecision b st) s

/-- Fineness rank of a precision: the position in the hierarchy
    `hour < day < week < month`, with `date` ranked like `day`, of which the
    spec declares it a display-only alias. -/
def fineRank : TimeUnit → Int
  | .hour => 0
  | .day => 1
  | .date => 1
  | .week => 2
  | .month => 3

/-! Label capitalization (`capitalizeString` / `capitalizeWords`).
    JS strings are modelled as lists of code points. -/

/-- Whitespace characters matched by the `\s` class, on the modelled alphabet. -/
def isWsChar (c : Char) : Bool :=
  c = ' ' || c = '\t' || c = '\n' || c = '\r'

/-- Characters that act as word boundaries in `capitalizeWords`:
    whitespace, a literal period, or a literal comma. -/
def isBoundaryChar (c : Char) : Bool :=
  isWsChar c || c = '.' || c = ','

/-- Unicode letters (`\p{L}`) on the modelled alphabet: ASCII letters plus
    the modelled precomposed letters. -/
def isLetterB (c : Char) : Bool :=
  c.isAlpha || c = 'é' || c = 'É'

/-- Canonical decomposition (NFD) of one character on the modelled alphabet:
    precomposed letters split into base letter and combining acute accent
    U+0301; every other character is NFD-invariant. -/
def nfdChar (c : Char) : List Char :=
  if c = 'é' then ['e', Char.ofNat 769]
  else if c = 'É' then ['E', Char.ofNat 769]
  else [c]

/-- NFD normalization of a string. -/
def nfdL (l : List Char) : List Char :=
  (l.map nfdChar).flatten

/-- `capitalizeString`: NFD-normalize, then uppercase a leading letter. -/
def capitalizeStringL (l : List Char) : List Char :=
  if l.isEmpty then l
  else
    match nfdL l with
    | [] => []
    | c :: rest => if isLetterB c then c.toUpper :: rest else c :: rest

/-- Scanner realising `str.split(/(\s+|\.|\,)/)`: `tok` is the reversed
    current token, `run` the reversed pending whitespace separator. Tokens
    and captured separators alternate in the output, exactly as the JS
    `split` with a capture group produces them. -/
def splitAux (tok run : List Char) : List Char → List (List Char)
  | [] => if run.isEmpty then [tok.reverse] else [tok.reverse, run.reverse, []]
  | c :: cs =>
    if isWsChar c then splitAux tok (c :: run) cs
    else if c = '.' || c = ',' then
      if run.isEmpty then tok.reverse :: [c] :: splitAux [] [] cs
      else tok.reverse :: run.reverse :: [] :: [c] :: splitAux [] [] cs
    else
      if run.isEmpty then splitAux (c :: tok) run cs
      else tok.reverse :: run.reverse :: splitAux [c] [] cs

/-- `str.split(/(\s+|\.|\,)/)` on the modelled strings. -/
def splitCW (l : List Char) : List (List Char) :=
  splitAux [] [] l

/-- Does a fragment begin with a Unicode letter (the `/^\p{L}/u` test)? -/
def leadLetter : List Char → Bool
  | [] => false
  | c :: _ => isLetterB c

/-- `capitalizeWords`: split on boundaries, capitalize letter-leading
    fragments, join everything back. -/
def capitalizeWordsL (l : List Char) : List Char :=
  ((splitCW l).map (fun w => if leadLetter w then capitalizeStringL w else w)).flatten

/-- `capitalizeWords` on Lean strings. -/
def capitalizeWords (s : String) : String :=
  (capitalizeWordsL s.data).asString

/-! Formatting, holiday enrichment and the output cells. -/

/-- Zero-padded two-digit rendering of a small number (`padStart(2, "0")`). -/
def pad2S (n : Int) : String :=
  if n < 10 ∧ 0 ≤ n then "0" ++ toString n else toString n

/-- English short month names of the default dayjs locale. -/
def monthShortName : Int → String
  | 1 => "Jan"
  | 2 => "Feb"
  | 3 => "Mar"
  | 4 => "Apr"
  | 5 => "May"
  | 6 => "Jun"
  | 7 => "Jul"
  | 8 => "Aug"
  | 9 => "Sep"
  | 10 => "Oct"
  | 11 => "Nov"
  | _ => "Dec"

/-- English full month names of the default dayjs locale. -/
def monthFullName : Int → String
  | 1 => "January"
  | 2 => "February"
  | 3 => "March"
  | 4 => "April"
  | 5 => "May"
  | 6 => "June"
  | 7 => "July"
  | 8 => "August"
  | 9 => "September"
  | 10 => "October"
  | 11 => "November"
  | _ => "December"

/-- `moment.format(format)` for the format strings of `displayFormats`.
    Core dayjs has no `W` token, so the `"WW"` week format string is emitted
    verbatim, as are all other unknown tokens. -/
def formatInst (t : Int) (fmt : String) : String :=
  if fmt = "HH" then pad2S (t % 1440 / 60)
  else if fmt = "DD.MMM" then pad2S (civilOf t).d ++ "." ++ monthShortName (civilOf t).m
  else if fmt = "MMMM YYYY" then monthFullName (civilOf t).m ++ " " ++ toString (civilOf t).y
  else if fmt = "YYYY" then toString (civilOf t).y
  else fmt

/-- `displayFormats` lookup through `getDisplayFormat`: `isoWeek` borrows the
    week format, every unit present in the table uses its own entry. -/
def getDisplayFormat : XUnit → String
  | .hour => "HH"
  | .date => "DD.MMM"
  | .day => "DD.MMM"
  | .week => "WW"
  | .month => "MMMM YYYY"
  | .year => "YYYY"
  | .isoWeek => "WW"

/-- Holiday information returned by the holiday collaborator. -/
structure HolidayInfo where
  isHoliday : Bool
  holidayName : Option String
  holidayType : Option String
deriving DecidableEq, Repr

/-- An output cell of the time axis (`TimeaxisUnit`). `widthPx` holds the
    numeric pixel width that the source renders as a `"<n>px"` string, and
    `value` the canonical instant string `String(moment)`, modelled by the
    decimal minute count. -/
structure TimeaxisUnit where
  label : String
  value : String
  dateVal : Int
  widthPx : Int
  isHoliday : Bool
  holidayName : Option String
  holidayType : Option String
deriving DecidableEq, Repr

/-- `createTimeaxisUnit`: formats and capitalizes the label and attaches
    holiday metadata obtained from the holiday collaborator `hfn`. -/
def createTimeaxisUnit (holidayOn : Bool) (hfn : Int → Option HolidayInfo)
    (t : Int) (fmt : String) (w : Int) : TimeaxisUnit :=
  let holidayInfo := if holidayOn then hfn t else none
  { label := capitalizeWords (formatInst t fmt)
    value := toString t
    dateVal := t
    widthPx := w
    isHoliday := (holidayInfo.map (·.isHoliday)).getD false
    holidayName := holidayInfo.bind (·.holidayName)
    holidayType := holidayInfo.bind (·.holidayType) }

/-! The windowed cache. -/

/-- A cache entry: creation timestamp (epoch milliseconds) and the stored
    unit sequence. -/
structure CacheEntry where
  timestamp : Int
  units : List TimeaxisUnit

/-- One of the two key-to-entry maps, modelled as an association list with
    the first binding of a key the visible one. -/
def CacheMap : Type := List (String × CacheEntry)

/-- `Map.get`. -/
def lookupEntry : List (String × CacheEntry) → String → Option CacheEntry
  | [], _ => none
  | (k', e) :: rest, k => if k' = k then some e else lookupEntry rest k

/-- `Map.delete`. -/
def eraseKey (m : List (String × CacheEntry)) (k : String) : List (String × CacheEntry) :=
  m.filter (fun p => p.1 ≠ k)

/-- `getFromCache`: a lookup at time `now`; an entry whose age exceeds the
    TTL is deleted and reported as a miss. Returns the result and the store
    after the call. -/
def getFromCache (now : Int) (cacheMap : List (String × CacheEntry)) (key : String) :
    Option (List TimeaxisUnit) × List (String × CacheEntry) :=
  match lookupEntry cacheMap key with
  | none => (none, cacheMap)
  | some entry =>
    if CACHE_TTL < now - entry.timestamp then (none, eraseKey cacheMap key)
    else (some entry.units, cacheMap)

/-! The minute-step calculator. -/

/-- The step-size lookup of `calculateMinuteSteps`; `none` is the early
    `return ["00"]` branch. -/
def minuteStepOf (possibleDivisions : Int) : Option Int :=
  if 60 ≤ possibleDivisions then some 1
  else if 12 ≤ possibleDivisions then some 5
  else if 6 ≤ possibleDivisions then some 10
  else if 4 ≤ possibleDivisions then some 15
  else if 2 ≤ possibleDivisions then some 30
  else none

/-- `calculateMinuteSteps`. -/
def calculateMinuteSteps (enableMinutes : Bool) (internalPrecision : TimeUnit)
    (zoomLevel : Int) : List String :=
  if ¬ enableMinutes ∨ internalPrecision ≠ TimeUnit.hour then []
  else
    match minuteStepOf (BASE_UNIT_WIDTH * zoomLevel / 16) with
    | none => ["00"]
    | some step => (List.range (60 / step).toNat).map (fun i => pad2S (i * step))

/-! The unit partitioner: the lower and upper generation loops of the
    `timeaxisUnits` computed property, written with explicit fuel. -/

/-- Advance an instant by one dayjs manipulation unit (`add(1, unit)`). -/
def addUnitD : DUnit → Int → Int
  | .hour, t => t + 60
  | .day, t => t + 1440
  | .week, t => t + 7 * 1440
  | .month, t => addMonthsI t 1
  | .year, t => addYearsI t 1

/-- Truncate an instant to the start of a dayjs unit (`startOf(unit)`).
    Weeks start on Sunday in the default locale; 1970-01-01 was a Thursday. -/
def startOfD : DUnit → Int → Int
  | .hour, t => t - t % 60
  | .day, t => startOfDayI t
  | .week, t => startOfDayI t - 1440 * ((dayOf t + 4) % 7)
  | .month, t => startOfMonthI t
  | .year, t => startOfYearI t

/-- Integer ceiling division: `ceilDiv a b = ⌈a / b⌉` for positive `b`.
    Realises `Math.ceil` of an exact integer ratio. -/
def ceilDiv (a b : Int) : Int := -(-a / b)

/-- Total month count of an instant, `12 * year + (month - 1)`; differences
    of these values are the `wholeMonthDiff` of the dayjs `monthDiff`. -/
def monthNumber (t : Int) : Int := 12 * (civilOf t).y + ((civilOf t).m - 1)

/-- Day-of-month accessor `.date()`. -/
def dateOfI (t : Int) : Int := (civilOf t).d

/-- Core of the dayjs `monthDiff(a, b)` (the branch with `a.date() ≥ b.date()`),
    returned as an exact numerator/denominator pair of the floating-point value
    `-(wholeMonthDiff + (b - anchor) / (anchor2 - anchor))`. -/
def monthDiffCore (a b : Int) : Int × Int :=
  let whole := monthNumber b - monthNumber a
  let anchor := addMonthsI a whole
  if b - anchor < 0 then
    let anchor2 := addMonthsI a (whole - 1)
    (-(whole * (anchor - anchor2)) - (b - anchor), anchor - anchor2)
  else
    let anchor2 := addMonthsI a (whole + 1)
    (-(whole * (anchor2 - anchor)) - (b - anchor), anchor2 - anchor)

/-- dayjs `monthDiff(a, b)` as an exact fraction: when `a.date() < b.date()`
    the arguments are swapped and the result negated. -/
def monthDiffFrac (a b : Int) : Int × Int :=
  if dateOfI a < dateOfI b then (-(monthDiffCore b a).1, (monthDiffCore b a).2)
  else monthDiffCore a b

/-- The `unitsInPeriod` computation of the upper loop:
    `Math.ceil(effectiveEnd.diff(effectiveStart, unit, true))` with the unit
    selected by the current internal precision; any precision other than
    `day`, `month` and `week` — notably `hour`, but also `date` — is measured
    in hours. -/
def unitsInPeriod (internalPrecision : TimeUnit) (effectiveStart effectiveEnd : Int) : Int :=
  if internalPrecision = TimeUnit.day then ceilDiv (effectiveEnd - effectiveStart) 1440
  else if internalPrecision = TimeUnit.month then
    ceilDiv (monthDiffFrac effectiveEnd effectiveStart).1 (monthDiffFrac effectiveEnd effectiveStart).2
  else if internalPrecision = TimeUnit.week then ceilDiv (effectiveEnd - effectiveStart) (7 * 1440)
  else ceilDiv (effectiveEnd - effectiveStart) 60

/-- The reactive inputs of one generation run. -/
structure GenCtx where
  chartStart : Int
  chartEnd : Int
  internalPrecision : TimeUnit
  zoomLevel : Int
  holidayOn : Bool
  hfn : Int → Option HolidayInfo

/-- `unitWidth`: pixel width of one base cell. -/
def unitWidth (ctx : GenCtx) : Int := BASE_UNIT_WIDTH * ctx.zoomLevel

/-- The lower-row loop: one constant-width cell per base unit while the
    cursor precedes the chart end. `none` means the fuel ran out before the
    loop condition failed. -/
def lowerLoop (ctx : GenCtx) : Nat → Int → Option (List TimeaxisUnit)
  | 0, _ => none
  | fuel + 1, currentLower =>
    if currentLower < ctx.chartEnd then
      match lowerLoop ctx fuel
          (addUnitD (getDayjsUnit (toX ctx.internalPrecision)) currentLower) with
      | none => none
      | some rest =>
        some (createTimeaxisUnit ctx.holidayOn ctx.hfn currentLower
          (getDisplayFormat (toX ctx.internalPrecision)) (unitWidth ctx) :: rest)
    else some []

/-- The upper-row loop: one cell per upper unit, its width the rounded-up
    count of base units in the effective (viewport-clamped) span; cells of
    non-positive width are skipped. -/
def upperLoop (ctx : GenCtx) : Nat → Int → Option (List TimeaxisUnit)
  | 0, _ => none
  | fuel + 1, currentUpper =>
    if currentUpper < ctx.chartEnd then
      match upperLoop ctx fuel
          (addUnitD (getDayjsUnit (upperPrecision ctx.internalPrecision)) currentUpper) with
      | none => none
      | some rest =>
        some (
          let nextUpper := addUnitD (getDayjsUnit (upperPrecision ctx.internalPrecision)) currentUpper
          let effectiveStart := if currentUpper < ctx.chartStart then ctx.chartStart else currentUpper
          let effectiveEnd := if ctx.chartEnd < nextUpper then ctx.chartEnd else nextUpper
          let totalWidth := unitsInPeriod ctx.internalPrecision effectiveStart effectiveEnd * unitWidth ctx
          if 0 < totalWidth then
            createTimeaxisUnit ctx.holidayOn ctx.hfn currentUpper
              (getDisplayFormat (upperPrecision ctx.internalPrecision)) totalWidth :: rest
          else rest)
    else some []

/-- One full (cache-miss) run of the `timeaxisUnits` computation: the lower
    loop starts at the chart start, the upper loop at its truncation to the
    upper precision. -/
def timeaxisCompute (ctx : GenCtx) (fuelL fuelU : Nat) :
    Option (List TimeaxisUnit × List TimeaxisUnit) :=
  match lowerLoop ctx fuelL ctx.chartStart,
        upperLoop ctx fuelU
          (startOfD (getDayjsUnit (upperPrecision ctx.internalPrecision)) ctx.chartStart) with
  | some lowerUnits, some upperUnits => some (lowerUnits, upperUnits)
  | _, _ => none

/-- Total pixel width of a sequence of cells. -/
def sumWidths (l : List TimeaxisUnit) : Int := (l.map (fun u => u.widthPx)).sum

/-! Claim theorems. -/

/-- C3: with the internal precision at `day` and the zoom at MIN_ZOOM, a
    zoom-out call moves the precision to `week` and resets the zoom to
    MAX_ZOOM; with the internal precision at `month` and the zoom at
    MIN_ZOOM, a zoom-out call is a no-op. This holds for every configured
    precision, which the zoom-out path never consults. -/
theorem zoomOut_boundary_behavior (cfg : TimeUnit) :
    adjustZoomAndPrecision false ⟨cfg, TimeUnit.day, MIN_ZOOM⟩
      = ⟨cfg, TimeUnit.week, MAX_ZOOM⟩ ∧
    adjustZoomAndPrecision false ⟨cfg, TimeUnit.month, MIN_ZOOM⟩
      = ⟨cfg, TimeUnit.month, MIN_ZOOM⟩ := by
  constructor <;> rfl

/-- C10: with the internal precision at `date` (absent from the hierarchy
    array, so its index lookup yields -1) and the zoom at MIN_ZOOM, a
    zoom-out call sets the precision to `hour`, the first hierarchy element,
    and resets the zoom to MAX_ZOOM. -/
theorem zoomOut_from_date_reaches_hour (cfg : TimeUnit) :
    adjustZoomAndPrecision false ⟨cfg, TimeUnit.date, MIN_ZOOM⟩
      = ⟨cfg, TimeUnit.hour, MAX_ZOOM⟩ := by
  rfl

/-- The zoom bounds are preserved by any single machine event. -/
theorem machineStep_zoom_bounds (s : MachineState) (ev : MachineEvent)
    (h1 : MIN_ZOOM ≤ s.zoom) (h2 : s.zoom ≤ MAX_ZOOM) :
    MIN_ZOOM ≤ (machineStep s ev).zoom ∧ (machineStep s ev).zoom ≤ MAX_ZOOM := by
  cases ev with
  | adjust b =>
    unfold machineStep adjustZoomAndPrecision
    unfold MIN_ZOOM MAX_ZOOM at *
    cases b <;> split_ifs <;> (try simp) <;> omega
  | setConfig p =>
    unfold machineStep DEFAULT_ZOOM MIN_ZOOM MAX_ZOOM at *
    simp

/-- C9: starting from the reset state of any configured precision, the zoom
    level stays in the integer interval [MIN_ZOOM, MAX_ZOOM] = [1, 10] after
    every finite sequence of zoom mutator calls and configured-precision
    resets. -/
theorem zoom_always_bounded (cfg : TimeUnit) (evs : List MachineEvent) :
    MIN_ZOOM ≤ (machineRun (initState cfg) evs).zoom ∧
    (machineRun (initState cfg) evs).zoom ≤ MAX_ZOOM := by
  have key : ∀ evs : List MachineEvent, ∀ s : MachineState,
      MIN_ZOOM ≤ s.zoom → s.zoom ≤ MAX_ZOOM →
      MIN_ZOOM ≤ (machineRun s evs).zoom ∧ (machineRun s evs).zoom ≤ MAX_ZOOM := by
    intro evs
    induction evs with
    | nil => intro s h1 h2; exact ⟨h1, h2⟩
    | cons ev rest ih =>
      intro s h1 h2
      obtain ⟨g1, g2⟩ := machineStep_zoom_bounds s ev h1 h2
      exact ih (machineStep s ev) g1 g2
  exact key evs (initState cfg) (by simp [initState, DEFAULT_ZOOM, MIN_ZOOM])
    (by simp [initState, DEFAULT_ZOOM, MAX_ZOOM])

/-- C4 counterexample: with the configured floor precision `date`, three
    zoom-out calls from the reset state reach internal precision `hour`,
    which is strictly finer than the floor (`date` ranks with `day`, of
    which the spec declares it a display alias). The floor invariant of the
    claim therefore fails for the floor `date`. -/
theorem floor_invariant_fails_for_date :
    adjustRun (initState TimeUnit.date) [false, false, false]
      = ⟨TimeUnit.date, TimeUnit.hour, MAX_ZOOM⟩ ∧
    fineRank (adjustRun (initState TimeUnit.date) [false, false, false]).internal
      < fineRank TimeUnit.date := by
  constructor
  · rfl
  · decide

/-- The hierarchy transition functions respect the floor for floors that are
    hierarchy members. -/
theorem precision_step_floor (cfg cur : TimeUnit) (hcfg : cfg ≠ TimeUnit.date)
    (hcur : cur ≠ TimeUnit.date) (h : hierIndex cfg ≤ hierIndex cur) :
    getNextPrecision cur ≠ TimeUnit.date ∧
    hierIndex cfg ≤ hierIndex (getNextPrecision cur) ∧
    getPreviousPrecision cfg cur ≠ TimeUnit.date ∧
    hierIndex cfg ≤ hierIndex (getPreviousPrecision cfg cur) := by
  revert hcfg hcur h
  cases cfg <;> cases cur <;> decide

/-- C4 amended: for every configured floor precision that is a member of the
    precision hierarchy (any `TimeUnit` except the display alias `date`),
    every finite sequence of zoom mutator calls from the reset state keeps
    the internal precision at least as coarse as the floor. -/
theorem floor_invariant_for_hierarchy_floors (cfg : TimeUnit) (hcfg : cfg ≠ TimeUnit.date)
    (evs : List Bool) :
    fineRank cfg ≤ fineRank (adjustRun (initState cfg) evs).internal := by
  have rank_eq : ∀ u : TimeUnit, u ≠ TimeUnit.date → fineRank u = hierIndex u := by
    intro u
    cases u <;> decide
  have key : ∀ evs : List Bool, ∀ s : MachineState,
      s.cfg = cfg → s.internal ≠ TimeUnit.date → hierIndex cfg ≤ hierIndex s.internal →
      (adjustRun s evs).internal ≠ TimeUnit.date ∧
      hierIndex cfg ≤ hierIndex (adjustRun s evs).internal := by
    intro evs
    induction evs with
    | nil => intro s _ h2 h3; exact ⟨h2, h3⟩
    | cons ev rest ih =>
      intro s h1 h2 h3
      obtain ⟨g1, g2, g3, g4⟩ := precision_step_floor cfg s.internal hcfg h2 h3
      have hstep : (adjustZoomAndPrecision ev s).cfg = cfg ∧
          (adjustZoomAndPrecision ev s).internal ≠ TimeUnit.date ∧
          hierIndex cfg ≤ hierIndex (adjustZoomAndPrecision ev s).internal := by
        unfold adjustZoomAndPrecision
        rw [← h1] at g2 g3 g4 ⊢
        cases ev <;> split_ifs <;> simp_all
      exact ih (adjustZoomAndPrecision ev s) hstep.1 hstep.2.1 hstep.2.2
  have base := key evs (initState cfg) rfl (by simpa [initState] using hcfg)
    (by simp [initState])
  rw [rank_eq cfg hcfg, rank_eq _ base.1]
  exact base.2

/-- Witness for the amended C4 at the floor `hour` and one zoom-out call. -/
theorem floor_invariant_for_hierarchy_floors_witness :
    fineRank TimeUnit.hour
      ≤ fineRank (adjustRun (initState TimeUnit.hour) [false]).internal :=
  floor_invariant_for_hierarchy_floors TimeUnit.hour (by decide) [false]

/-- Looking a key up after erasing it misses. -/
theorem lookupEntry_eraseKey (m : List (String × CacheEntry)) (k : String) :
    lookupEntry (eraseKey m k) k = none := by
  induction m with
  | nil => rfl
  | cons p rest ih =>
    unfold eraseKey at ih ⊢
    rcases eq_or_ne p.1 k with h | h
    · have hv : decide (p.1 ≠ k) = false := by simp [h]
      rw [List.filter_cons, hv]
      simp only [Bool.false_eq_true, if_false]
      exact ih
    · have hv : decide (p.1 ≠ k) = true := by simp [h]
      rw [List.filter_cons, hv]
      simp only [if_true]
      unfold lookupEntry
      rw [if_neg h]
      exact ih

/-- C5: semantics of a cache read at time `now`: an absent key misses and
    leaves the store unchanged; an entry older than the TTL (300000 ms)
    misses and is deleted from the store; an entry within the TTL returns
    exactly the stored unit sequence and leaves the store unchanged. -/
theorem getFromCache_semantics (now : Int) (m : List (String × CacheEntry)) (k : String) :
    (lookupEntry m k = none → getFromCache now m k = (none, m)) ∧
    (∀ entry, lookupEntry m k = some entry → CACHE_TTL < now - entry.timestamp →
      (getFromCache now m k).1 = none ∧ lookupEntry (getFromCache now m k).2 k = none) ∧
    (∀ entry, lookupEntry m k = some entry → now - entry.timestamp ≤ CACHE_TTL →
      getFromCache now m k = (some entry.units, m)) := by
  refine ⟨?_, ?_, ?_⟩
  · intro h
    simp only [getFromCache, h]
  · intro entry h hexp
    simp only [getFromCache, h, if_pos hexp]
    exact ⟨trivial, lookupEntry_eraseKey m k⟩
  · intro entry h hfresh
    simp only [getFromCache, h]
    rw [if_neg (by omega)]

/-- A concrete cache key for the cache-read witness. -/
def wKey : String := "k1"

/-- A stale cache entry (written at epoch 0). -/
def wEntryOld : CacheEntry := ⟨0, []⟩

/-- A fresh cache entry (written at 200000 ms). -/
def wEntryFresh : CacheEntry := ⟨200000, []⟩

/-- Witness for the cache-read semantics at time 400000 ms: the stale entry
    misses and is evicted, the fresh entry hits, the absent key misses. -/
theorem getFromCache_semantics_witness :
    ((getFromCache 400000 [(wKey, wEntryOld)] wKey).1 = none ∧
      lookupEntry (getFromCache 400000 [(wKey, wEntryOld)] wKey).2 wKey = none) ∧
    getFromCache 400000 [(wKey, wEntryFresh)] wKey = (some wEntryFresh.units, [(wKey, wEntryFresh)]) ∧
    getFromCache 400000 [] wKey = (none, []) := by
  refine ⟨?_, ?_, ?_⟩
  · exact (getFromCache_semantics 400000 [(wKey, wEntryOld)] wKey).2.1 wEntryOld (by rfl)
      (by decide)
  · exact (getFromCache_semantics 400000 [(wKey, wEntryFresh)] wKey).2.2 wEntryFresh (by rfl)
      (by decide)
  · exact (getFromCache_semantics 400000 [] wKey).1 (by rfl)

/-- The minute-step generator described by the spec: divide the cell width by
    the minimum readable sub-cell width of 16 px, choose the step from the
    fixed table, and emit the ascending two-digit zero-padded minute labels
    spaced by that step over one hour; with no possible subdivision a single
    "00" placeholder is produced. -/
def claimMinuteSteps (cellWidth : Int) : List String :=
  let possibleDivisions := cellWidth / 16
  if 60 ≤ possibleDivisions then (List.range (60 / 1)).map (fun (i : Nat) => pad2S ((i : Int) * 1))
  else if 12 ≤ possibleDivisions then (List.range (60 / 5)).map (fun (i : Nat) => pad2S ((i : Int) * 5))
  else if 6 ≤ possibleDivisions then (List.range (60 / 10)).map (fun (i : Nat) => pad2S ((i : Int) * 10))
  else if 4 ≤ possibleDivisions then (List.range (60 / 15)).map (fun (i : Nat) => pad2S ((i : Int) * 15))
  else if 2 ≤ possibleDivisions then (List.range (60 / 30)).map (fun (i : Nat) => pad2S ((i : Int) * 30))
  else ["00"]

/-- C7: the minute-step calculator returns the empty sequence unless minute
    display is enabled and the precision is `hour`; otherwise it produces
    exactly the table-driven label sequence of the spec; every label is two
    characters; and a 240 px cell yields the twelve labels 00, 05, ..., 55. -/
theorem calculateMinuteSteps_correct :
    (∀ (enableMinutes : Bool) (p : TimeUnit) (z : Int),
      calculateMinuteSteps enableMinutes p z =
        if enableMinutes = true ∧ p = TimeUnit.hour
        then claimMinuteSteps (BASE_UNIT_WIDTH * z) else []) ∧
    (∀ (enableMinutes : Bool) (p : TimeUnit) (z : Int),
      (calculateMinuteSteps enableMinutes p z).all (fun lab => lab.length == 2) = true) ∧
    calculateMinuteSteps true TimeUnit.hour 10 =
      ["00", "05", "10", "15", "20", "25", "30", "35", "40", "45", "50", "55"] := by
  have hmain : ∀ (enableMinutes : Bool) (p : TimeUnit) (z : Int),
      calculateMinuteSteps enableMinutes p z =
        if enableMinutes = true ∧ p = TimeUnit.hour
        then claimMinuteSteps (BASE_UNIT_WIDTH * z) else [] := by
    intro e p z
    unfold calculateMinuteSteps claimMinuteSteps minuteStepOf
    cases e <;> cases p <;> simp <;> split_ifs <;> rfl
  refine ⟨hmain, ?_, by decide⟩
  intro e p z
  rw [hmain]
  split_ifs with hg
  · unfold claimMinuteSteps
    simp only []
    split_ifs <;> decide
  · decide

/-- The claim-side transform: scan the string, uppercase exactly those
    letters that open a word fragment, copy everything else. -/
def wordCapPointwise : Bool → List Char → List Char
  | _, [] => []
  | atStart, c :: cs =>
    if isBoundaryChar c then c :: wordCapPointwise true cs
    else if atStart && isLetterB c then c.toUpper :: wordCapPointwise false cs
    else c :: wordCapPointwise false cs

/-- The per-fragment transform of `capitalizeWords`. -/
def fragStep (w : List Char) : List Char :=
  if leadLetter w then capitalizeStringL w else w

theorem wordCapPointwise_nil (st : Bool) : wordCapPointwise st [] = [] := rfl

theorem wordCapPointwise_cons (st : Bool) (c : Char) (cs : List Char) :
    wordCapPointwise st (c :: cs)
      = if isBoundaryChar c then c :: wordCapPointwise true cs
        else if st && isLetterB c then c.toUpper :: wordCapPointwise false cs
        else c :: wordCapPointwise false cs := rfl

theorem fragStep_nil : fragStep [] = [] := rfl

theorem nfdL_invariant {l : List Char} (h : ∀ c ∈ l, nfdChar c = [c]) : nfdL l = l := by
  induction l with
  | nil => rfl
  | cons c cs ih =>
    unfold nfdL at ih ⊢
    simp only [List.map_cons, List.flatten_cons]
    rw [h c (by simp), ih (fun d hd => h d (by simp [hd]))]
    rfl

theorem ws_not_letter {c : Char} (h : isWsChar c = true) : isLetterB c = false := by
  unfold isWsChar at h
  unfold isLetterB
  rcases Bool.or_eq_true_iff.mp h with h1 | h1
  · rcases Bool.or_eq_true_iff.mp h1 with h2 | h2
    · rcases Bool.or_eq_true_iff.mp h2 with h3 | h3 <;>
        (simp only [decide_eq_true_eq] at h3; subst h3; decide)
    · simp only [decide_eq_true_eq] at h2; subst h2; decide
  · simp only [decide_eq_true_eq] at h1; subst h1; decide

theorem boundary_not_letter {c : Char} (h : isBoundaryChar c = true) : isLetterB c = false := by
  unfold isBoundaryChar at h
  rcases Bool.or_eq_true_iff.mp h with h1 | h1
  · rcases Bool.or_eq_true_iff.mp h1 with h2 | h2
    · exact ws_not_letter h2
    · simp only [decide_eq_true_eq] at h2; subst h2; decide
  · simp only [decide_eq_true_eq] at h1; subst h1; decide

/-- Appending a character to a nonempty NFD-invariant fragment commutes with
    the fragment transform. -/
theorem fragStep_append {x : List Char} (c : Char) (hx : x ≠ [])
    (hnf : ∀ d ∈ x, nfdChar d = [d]) (hnc : nfdChar c = [c]) :
    fragStep (x ++ [c]) = fragStep x ++ [c] := by
  obtain ⟨a, as, rfl⟩ := List.exists_cons_of_ne_nil hx
  unfold fragStep leadLetter
  simp only [List.cons_append]
  have hinv : nfdL (a :: as) = a :: as := nfdL_invariant hnf
  have hinv2 : nfdL ((a :: as) ++ [c]) = (a :: as) ++ [c] := by
    apply nfdL_invariant
    intro d hd
    rcases List.mem_append.mp hd with h | h
    · exact hnf d h
    · simp only [List.mem_singleton] at h
      subst h
      exact hnc
  split_ifs with h
  · unfold capitalizeStringL
    rw [List.cons_append] at hinv2
    simp only [List.isEmpty_cons, Bool.false_eq_true, if_false, List.cons_append]
    rw [hinv2, hinv]
    show (if isLetterB a = true then a.toUpper :: (as ++ [c]) else a :: (as ++ [c]))
        = (if isLetterB a = true then a.toUpper :: as else a :: as) ++ [c]
    rw [if_pos h, if_pos h]
    simp
  · rfl

theorem fragStep_of_lead_false {w : List Char} (h : leadLetter w = false) : fragStep w = w := by
  unfold fragStep
  rw [h]
  simp

theorem leadLetter_reverse_ws {run : List Char} (h : ∀ c ∈ run, isWsChar c = true) :
    leadLetter run.reverse = false := by
  cases hr : run.reverse with
  | nil => rfl
  | cons c cs =>
    have hc : c ∈ run := by
      have : c ∈ run.reverse := by rw [hr]; simp
      simpa using this
    unfold leadLetter
    exact ws_not_letter (h c hc)

theorem fragStep_reverse_ws {run : List Char} (h : ∀ c ∈ run, isWsChar c = true) :
    fragStep run.reverse = run.reverse :=
  fragStep_of_lead_false (leadLetter_reverse_ws h)

theorem fragStep_single_sep {c : Char} (h : isBoundaryChar c = true) : fragStep [c] = [c] := by
  apply fragStep_of_lead_false
  unfold leadLetter
  exact boundary_not_letter h

theorem fragStep_single (c : Char) (hnc : nfdChar c = [c]) :
    fragStep [c] = [if isLetterB c then c.toUpper else c] := by
  unfold fragStep leadLetter
  split_ifs with h
  · unfold capitalizeStringL
    have : nfdL [c] = [c] := by
      apply nfdL_invariant
      intro d hd
      simp only [List.mem_singleton] at hd
      subst hd
      exact hnc
    simp only [List.isEmpty_cons, Bool.false_eq_true, if_false]
    rw [this]
    show (if isLetterB c = true then c.toUpper :: ([] : List Char) else [c]) = [c.toUpper]
    rw [if_pos h]
  · rfl

set_option maxHeartbeats 2000000 in
/-- The generalised pointwise description of `capitalizeWords` on
    NFD-invariant input: `tok` is the reversed, boundary-free token prefix,
    `run` the reversed whitespace run. -/
theorem capAux (rest : List Char) : ∀ tok run : List Char,
    (∀ c ∈ rest, nfdChar c = [c]) →
    (∀ c ∈ tok, nfdChar c = [c] ∧ isBoundaryChar c = false) →
    (∀ c ∈ run, isWsChar c = true) →
    ((splitAux tok run rest).map fragStep).flatten
      = fragStep tok.reverse ++ run.reverse
        ++ wordCapPointwise (!run.isEmpty || tok.isEmpty) rest := by
  induction rest with
  | nil =>
    intro tok run _ htok hrun
    unfold splitAux
    rcases run with _ | ⟨r, rs⟩
    · simp [wordCapPointwise_nil]
    · simp only [List.isEmpty_cons, Bool.false_eq_true, if_false, List.map_cons,
        List.map_nil, List.flatten_cons, List.flatten_nil]
      rw [fragStep_reverse_ws hrun]
      simp [wordCapPointwise_nil, fragStep_nil]
  | cons c cs ih =>
    intro tok run hrest htok hrun
    have hc : nfdChar c = [c] := hrest c (by simp)
    have hcs : ∀ d ∈ cs, nfdChar d = [d] := fun d hd => hrest d (by simp [hd])
    unfold splitAux
    rcases hw : isWsChar c with _ | _
    · rcases hdot : (c = '.' || c = ',') with _ | _
      · -- ordinary character
        have hnb : isBoundaryChar c = false := by
          unfold isBoundaryChar
          rw [hw, Bool.false_or]
          exact hdot
        simp only [hw, hdot, Bool.false_eq_true, if_false]
        rcases run with _ | ⟨r, rs⟩
        · simp only [List.isEmpty_nil, if_true]
          have htok' : ∀ d ∈ c :: tok, nfdChar d = [d] ∧ isBoundaryChar d = false := by
            intro d hd
            rcases List.mem_cons.mp hd with h | h
            · subst h
              exact ⟨hc, hnb⟩
            · exact htok d h
          rw [ih (c :: tok) [] hcs htok' (by simp)]
          rcases tok with _ | ⟨t, ts⟩
          · simp only [List.reverse_nil, List.reverse_cons, List.nil_append,
              List.isEmpty_cons, List.isEmpty_nil]
            rw [fragStep_single c hc]
            rw [wordCapPointwise_cons, hnb]
            simp only [Bool.false_eq_true, if_false, List.isEmpty_nil, Bool.not_true,
              Bool.false_or, Bool.true_and, fragStep_nil, List.nil_append]
            split_ifs <;> simp_all
          · have htne : (t :: ts).reverse ≠ [] := by simp
            rw [List.reverse_cons]
            rw [fragStep_append c htne (fun d hd => (htok d (List.mem_reverse.mp hd)).1) hc]
            rw [wordCapPointwise_cons, hnb]
            simp only [List.isEmpty_cons, Bool.false_eq_true, if_false, Bool.false_and]
            simp
        · simp only [List.isEmpty_cons, Bool.false_eq_true, if_false, List.map_cons,
            List.flatten_cons]
          have htok' : ∀ d ∈ [c], nfdChar d = [d] ∧ isBoundaryChar d = false := by
            intro d hd
            simp only [List.mem_singleton] at hd
            subst hd
            exact ⟨hc, hnb⟩
          rw [ih [c] [] hcs htok' (by simp)]
          simp only [List.reverse_singleton, List.reverse_nil, List.nil_append,
            List.append_nil]
          rw [fragStep_reverse_ws hrun]
          rw [fragStep_single c hc]
          rw [wordCapPointwise_cons, hnb]
          simp only [List.reverse_cons, List.isEmpty_cons, Bool.false_eq_true, if_false,
            Bool.not_false, Bool.true_or, Bool.or_true, Bool.true_and, fragStep_nil,
            List.nil_append]
          split_ifs <;> simp_all
      · -- a period or comma separator
        have hb : isBoundaryChar c = true := by
          unfold isBoundaryChar
          rw [hw, Bool.false_or]
          exact hdot
        simp only [hw, hdot, Bool.false_eq_true, if_false, if_true]
        rcases run with _ | ⟨r, rs⟩
        · simp only [List.isEmpty_nil, if_true, List.map_cons, List.flatten_cons]
          rw [ih [] [] hcs (by simp) (by simp)]
          rw [fragStep_single_sep hb]
          rw [wordCapPointwise_cons, hb]
          simp [fragStep_nil]
        · simp only [List.isEmpty_cons, Bool.false_eq_true, if_false, List.map_cons,
            List.flatten_cons]
          rw [ih [] [] hcs (by simp) (by simp)]
          rw [fragStep_reverse_ws hrun, fragStep_single_sep hb]
          rw [wordCapPointwise_cons, hb]
          simp [fragStep_nil]
    · -- a whitespace character
      have hrun' : ∀ d ∈ c :: run, isWsChar d = true := by
        intro d hd
        rcases List.mem_cons.mp hd with h | h
        · subst h
          exact hw
        · exact hrun d h
      have hb : isBoundaryChar c = true := by
        unfold isBoundaryChar
        rw [hw]
        rfl
      simp only [hw, if_true]
      rw [ih tok (c :: run) hcs htok hrun']
      rw [wordCapPointwise_cons, hb]
      simp

theorem capitalizeWordsL_pointwise (l : List Char) (h : ∀ c ∈ l, nfdChar c = [c]) :
    capitalizeWordsL l = wordCapPointwise true l := by
  unfold capitalizeWordsL splitCW
  have heq : (fun w => if leadLetter w then capitalizeStringL w else w) = fragStep := rfl
  rw [heq]
  have := capAux l [] [] h (by simp) (by simp)
  rw [this]
  simp [fragStep_nil]

/-- C6 counterexample: `capitalizeWords("né")` decomposes the precomposed
    character U+00E9 after the first letter into `e` + U+0301, so the
    character after the first letter of the word is altered, contradicting
    the claim. -/
theorem capitalizeWords_alters_after_first_letter :
    capitalizeWordsL ['n', 'é'] = ['N', 'e', Char.ofNat 769] ∧
    (capitalizeWordsL ['n', 'é']).drop 1 ≠ (['n', 'é'] : List Char).drop 1 := by
  constructor
  · decide
  · decide

/-- C6 amended: on every input whose characters are NFD-invariant,
    `capitalizeWords` equals the pointwise transform that preserves all
    boundary characters (whitespace, period, comma) verbatim, uppercases
    exactly the letters that open a letter-leading word fragment, and copies
    every other character unchanged; in particular the two spec examples
    hold. (On other inputs, precomposed characters of letter-leading
    fragments are first replaced by their NFD decomposition, as the
    counterexample records.) -/
theorem capitalizeWords_pointwise_spec :
    (∀ l : List Char, (∀ c ∈ l, nfdChar c = [c]) →
      capitalizeWordsL l = wordCapPointwise true l) ∧
    capitalizeWords "dicembre 2024" = "Dicembre 2024" ∧
    capitalizeWords "lun. 25" = "Lun. 25" := by
  refine ⟨capitalizeWordsL_pointwise, by decide, by decide⟩

/-- Witness for the amended C6 on the first spec example. -/
theorem capitalizeWords_pointwise_spec_witness :
    capitalizeWordsL ('d' :: 'i' :: 'c' :: 'e' :: 'm' :: 'b' :: 'r' :: 'e' :: ' ' ::
        '2' :: '0' :: '2' :: '4' :: [])
      = wordCapPointwise true ('d' :: 'i' :: 'c' :: 'e' :: 'm' :: 'b' :: 'r' :: 'e' :: ' ' ::
        '2' :: '0' :: '2' :: '4' :: []) :=
  capitalizeWords_pointwise_spec.1 _ (by decide)

/-! Concrete instants, the end-to-end scenario, and the width-reconciliation
    analysis of the two generation loops. -/

/-- Convenience constructor of an instant from a civil date and a time of day. -/
def mkInstant (y m d h mi : Int) : Int := 1440 * daysFromCivil ⟨y, m, d⟩ + 60 * h + mi

/-- A holiday collaborator that reports no holidays. -/
def noHolidays : Int → Option HolidayInfo := fun _ => none

/-- The generation context of the end-to-end scenario: viewport
    2024-12-25 08:00 to 2024-12-27 23:00, precision `hour`, zoom 3, no
    holiday highlighting. -/
def ctxScenario : GenCtx :=
  ⟨mkInstant 2024 12 25 8 0, mkInstant 2024 12 27 23 0, TimeUnit.hour, 3, false, noHolidays⟩

/-- C2: in the scenario viewport 2024-12-25 08:00 to 2024-12-27 23:00 with
    precision `hour` and zoom 3, the lower row holds exactly 63 hour cells of
    72px each, labeled with the `HH` format (hours 08, 09, ... wrapping mod
    24), and the upper row groups by day with widths 1152px
    (16 clipped hours), 1728px (24 full hours) and 1656px (23 clipped
    hours). -/
theorem scenario_test :
    (timeaxisCompute ctxScenario 64 4).map
        (fun r => (r.1.length, r.1.map (fun u => u.label),
                   r.1.all (fun u => u.widthPx == 72),
                   r.2.map (fun u => u.widthPx)))
      = some (63, (List.range 63).map (fun i => pad2S ((8 + (i : Int)) % 24)), true,
          [1152, 1728, 1656]) := by
  decide

/-- C8: for every viewport whose end does not come after its start, the
    computation terminates — a lower fuel of one step and an upper fuel of two
    steps already suffice, so neither loop runs unboundedly — and the lower
    row is the empty sequence. -/
theorem inverted_range_test (s e : Int) (p : TimeUnit) (z : Int)
    (hol : Bool) (hfn : Int → Option HolidayInfo) (h : e ≤ s)
    (fuelL fuelU : Nat) (hL : 1 ≤ fuelL) (hU : 2 ≤ fuelU) :
    ∃ upperUnits, timeaxisCompute ⟨s, e, p, z, hol, hfn⟩ fuelL fuelU
      = some ([], upperUnits) := by
  obtain ⟨nL, rfl⟩ : ∃ n, fuelL = n + 1 := ⟨fuelL - 1, by omega⟩
  obtain ⟨nU, rfl⟩ : ∃ n, fuelU = n + 2 := ⟨fuelU - 2, by omega⟩
  have hlow : lowerLoop ⟨s, e, p, z, hol, hfn⟩ (nL + 1) s = some [] := by
    unfold lowerLoop
    rw [if_neg (by simp only []; omega)]
  set U := getDayjsUnit (upperPrecision p) with hUdef
  set b0 := startOfD U s with hb0
  have hfacts : b0 ≤ s ∧ s < addUnitD U b0 := by
    rw [hb0, hUdef]
    cases p
    · -- hour: upper unit is day
      simp only [upperPrecision, getDayjsUnit, startOfD, addUnitD]
      unfold startOfDayI dayOf
      omega
    · simp only [upperPrecision, getDayjsUnit, startOfD, addUnitD]
      exact ⟨startOfMonthI_le s, lt_addMonthsI_startOfMonthI s⟩
    · simp only [upperPrecision, getDayjsUnit, startOfD, addUnitD]
      exact ⟨startOfMonthI_le s, lt_addMonthsI_startOfMonthI s⟩
    · simp only [upperPrecision, getDayjsUnit, startOfD, addUnitD]
      exact ⟨startOfMonthI_le s, lt_addMonthsI_startOfMonthI s⟩
    · simp only [upperPrecision, getDayjsUnit, startOfD, addUnitD]
      exact ⟨startOfYearI_le s, lt_addYearsI_startOfYearI s⟩
  have hupper : ∃ us, upperLoop ⟨s, e, p, z, hol, hfn⟩ (nU + 2) b0 = some us := by
    rcases lt_or_ge b0 e with hb | hb
    · have hnext : ¬ (addUnitD U b0 < e) := by
        have := hfacts.2
        omega
      have hinner : upperLoop ⟨s, e, p, z, hol, hfn⟩ (nU + 1)
          (addUnitD (getDayjsUnit (upperPrecision p)) b0) = some [] := by
        unfold upperLoop
        rw [if_neg (by simp only []; rw [← hUdef]; exact hnext)]
      have hsome : (upperLoop ⟨s, e, p, z, hol, hfn⟩ (nU + 2) b0).isSome = true := by
        unfold upperLoop
        rw [if_pos (by simp only []; exact hb)]
        rw [hinner]
        rfl
      exact Option.isSome_iff_exists.mp hsome
    · refine ⟨[], ?_⟩
      unfold upperLoop
      rw [if_neg (by simp only []; omega)]
  obtain ⟨us, hus⟩ := hupper
  refine ⟨us, ?_⟩
  unfold timeaxisCompute
  rw [hlow]
  rw [← hUdef, ← hb0, hus]

/-- Number of base cells the lower loop emits from a remaining span of `a`
    minutes with a unit of `L` minutes: zero on an exhausted span, otherwise
    the rounded-up quotient. -/
def countUnits (a L : Int) : Int := if 0 < a then -(-a / L) else 0

/-- The lower loop at `hour` precision emits constant cells totalling
    `unitWidth` times the rounded-up hour count of the remaining span. -/
theorem lower_sum_hour (s e z : Int) (hol : Bool) (hfn : Int → Option HolidayInfo) :
    ∀ (fuel : Nat) (cur : Int) (lo : List TimeaxisUnit),
      lowerLoop ⟨s, e, TimeUnit.hour, z, hol, hfn⟩ fuel cur = some lo →
      sumWidths lo = 24 * z * countUnits (e - cur) 60 := by
  intro fuel
  induction fuel with
  | zero => intro cur lo hlo; exact absurd hlo (by unfold lowerLoop; simp)
  | succ n ih =>
    intro cur lo hlo
    unfold lowerLoop at hlo
    by_cases hc : cur < e
    · rw [if_pos (by simp only []; exact hc)] at hlo
      rcases hrec : lowerLoop ⟨s, e, TimeUnit.hour, z, hol, hfn⟩ n
          (addUnitD (getDayjsUnit (toX TimeUnit.hour)) cur) with _ | rest
      · rw [hrec] at hlo
        exact absurd hlo (by simp)
      · rw [hrec] at hlo
        have hrest := ih _ _ hrec
        simp only [Option.some_inj] at hlo
        subst hlo
        unfold sumWidths at hrest ⊢
        simp only [List.map_cons, List.sum_cons]
        rw [hrest]
        simp only [createTimeaxisUnit, unitWidth]
        simp only [addUnitD, getDayjsUnit, toX] at *
        have hident : countUnits (e - cur) 60 = 1 + countUnits (e - (cur + 60)) 60 := by
          unfold countUnits
          split_ifs <;> omega
        simp only [BASE_UNIT_WIDTH]
        rw [hident]
        ring
    · rw [if_neg (by simp only []; exact hc)] at hlo
      simp only [Option.some_inj] at hlo
      subst hlo
      unfold sumWidths countUnits
      rw [if_neg (by omega)]
      simp

/-- The lower loop at `day` precision: analogue of `lower_sum_hour`. -/
theorem lower_sum_day (s e z : Int) (hol : Bool) (hfn : Int → Option HolidayInfo) :
    ∀ (fuel : Nat) (cur : Int) (lo : List TimeaxisUnit),
      lowerLoop ⟨s, e, TimeUnit.day, z, hol, hfn⟩ fuel cur = some lo →
      sumWidths lo = 24 * z * countUnits (e - cur) 1440 := by
  intro fuel
  induction fuel with
  | zero => intro cur lo hlo; exact absurd hlo (by unfold lowerLoop; simp)
  | succ n ih =>
    intro cur lo hlo
    unfold lowerLoop at hlo
    by_cases hc : cur < e
    · rw [if_pos (by simp only []; exact hc)] at hlo
      rcases hrec : lowerLoop ⟨s, e, TimeUnit.day, z, hol, hfn⟩ n
          (addUnitD (getDayjsUnit (toX TimeUnit.day)) cur) with _ | rest
      · rw [hrec] at hlo
        exact absurd hlo (by simp)
      · rw [hrec] at hlo
        have hrest := ih _ _ hrec
        simp only [Option.some_inj] at hlo
        subst hlo
        unfold sumWidths at hrest ⊢
        simp only [List.map_cons, List.sum_cons]
        rw [hrest]
        simp only [createTimeaxisUnit, unitWidth]
        simp only [addUnitD, getDayjsUnit, toX] at *
        have hident : countUnits (e - cur) 1440 = 1 + countUnits (e - (cur + 1440)) 1440 := by
          unfold countUnits
          split_ifs <;> omega
        simp only [BASE_UNIT_WIDTH]
        rw [hident]
        ring
    · rw [if_neg (by simp only []; exact hc)] at hlo
      simp only [Option.some_inj] at hlo
      subst hlo
      unfold sumWidths countUnits
      rw [if_neg (by omega)]
      simp

/-- The lower loop at `week` precision: analogue of `lower_sum_hour`. -/
theorem lower_sum_week (s e z : Int) (hol : Bool) (hfn : Int → Option HolidayInfo) :
    ∀ (fuel : Nat) (cur : Int) (lo : List TimeaxisUnit),
      lowerLoop ⟨s, e, TimeUnit.week, z, hol, hfn⟩ fuel cur = some lo →
      sumWidths lo = 24 * z * countUnits (e - cur) 10080 := by
  intro fuel
  induction fuel with
  | zero => intro cur lo hlo; exact absurd hlo (by unfold lowerLoop; simp)
  | succ n ih =>
    intro cur lo hlo
    unfold lowerLoop at hlo
    by_cases hc : cur < e
    · rw [if_pos (by simp only []; exact hc)] at hlo
      rcases hrec : lowerLoop ⟨s, e, TimeUnit.week, z, hol, hfn⟩ n
          (addUnitD (getDayjsUnit (toX TimeUnit.week)) cur) with _ | rest
      · rw [hrec] at hlo
        exact absurd hlo (by simp)
      · rw [hrec] at hlo
        have hrest := ih _ _ hrec
        simp only [Option.some_inj] at hlo
        subst hlo
        unfold sumWidths at hrest ⊢
        simp only [List.map_cons, List.sum_cons]
        rw [hrest]
        simp only [createTimeaxisUnit, unitWidth]
        simp only [addUnitD, getDayjsUnit, toX] at *
        have hident : countUnits (e - cur) 10080
            = 1 + countUnits (e - (cur + 7 * 1440)) 10080 := by
          unfold countUnits
          split_ifs <;> omega
        simp only [BASE_UNIT_WIDTH]
        rw [hident]
        ring
    · rw [if_neg (by simp only []; exact hc)] at hlo
      simp only [Option.some_inj] at hlo
      subst hlo
      unfold sumWidths countUnits
      rw [if_neg (by omega)]
      simp

/-- Unfolding lemma of `sumWidths` on a cons cell. -/
theorem sumWidths_cons (a : TimeaxisUnit) (l : List TimeaxisUnit) :
    sumWidths (a :: l) = a.widthPx + sumWidths l := by
  unfold sumWidths
  simp

/-- `unitsInPeriod` at `hour` precision measures in hours. -/
theorem unitsInPeriod_hour (a b : Int) :
    unitsInPeriod TimeUnit.hour a b = ceilDiv (b - a) 60 := rfl

/-- `unitsInPeriod` at `day` precision measures in days. -/
theorem unitsInPeriod_day (a b : Int) :
    unitsInPeriod TimeUnit.day a b = ceilDiv (b - a) 1440 := rfl

/-- `unitsInPeriod` at `week` precision measures in weeks. -/
theorem unitsInPeriod_week (a b : Int) :
    unitsInPeriod TimeUnit.week a b = ceilDiv (b - a) 10080 := rfl

/-- Splitting the rounded-up hour count of a span at an upper-cell
    boundary: the clamped cell count plus the count of the remainder
    overshoots the total count by at most one, and a non-positive clamped
    cell can only arise on an exhausted span. -/
theorem split60 (s e cur next : Int) (hc : cur < e) (hcn : cur < next) (hinv : s < next) :
    (0 < ceilDiv ((if e < next then e else next) - (if cur < s then s else cur)) 60 →
      countUnits (e - (if cur < s then s else cur)) 60
        ≤ ceilDiv ((if e < next then e else next) - (if cur < s then s else cur)) 60
          + countUnits (e - next) 60 ∧
      ceilDiv ((if e < next then e else next) - (if cur < s then s else cur)) 60
          + countUnits (e - next) 60
        ≤ countUnits (e - (if cur < s then s else cur)) 60 + 1 ∧
      (countUnits (e - next) 60 = 0 →
        ceilDiv ((if e < next then e else next) - (if cur < s then s else cur)) 60
          ≤ countUnits (e - (if cur < s then s else cur)) 60)) ∧
    (ceilDiv ((if e < next then e else next) - (if cur < s then s else cur)) 60 ≤ 0 →
      countUnits (e - (if cur < s then s else cur)) 60 = 0 ∧ countUnits (e - next) 60 = 0) := by
  unfold countUnits ceilDiv
  split_ifs <;> omega

/-- Analogue of `split60` for day-sized base cells. -/
theorem split1440 (s e cur next : Int) (hc : cur < e) (hcn : cur < next) (hinv : s < next) :
    (0 < ceilDiv ((if e < next then e else next) - (if cur < s then s else cur)) 1440 →
      countUnits (e - (if cur < s then s else cur)) 1440
        ≤ ceilDiv ((if e < next then e else next) - (if cur < s then s else cur)) 1440
          + countUnits (e - next) 1440 ∧
      ceilDiv ((if e < next then e else next) - (if cur < s then s else cur)) 1440
          + countUnits (e - next) 1440
        ≤ countUnits (e - (if cur < s then s else cur)) 1440 + 1 ∧
      (countUnits (e - next) 1440 = 0 →
        ceilDiv ((if e < next then e else next) - (if cur < s then s else cur)) 1440
          ≤ countUnits (e - (if cur < s then s else cur)) 1440)) ∧
    (ceilDiv ((if e < next then e else next) - (if cur < s then s else cur)) 1440 ≤ 0 →
      countUnits (e - (if cur < s then s else cur)) 1440 = 0 ∧ countUnits (e - next) 1440 = 0) := by
  unfold countUnits ceilDiv
  split_ifs <;> omega

/-- Analogue of `split60` for week-sized base cells. -/
theorem split10080 (s e cur next : Int) (hc : cur < e) (hcn : cur < next) (hinv : s < next) :
    (0 < ceilDiv ((if e < next then e else next) - (if cur < s then s else cur)) 10080 →
      countUnits (e - (if cur < s then s else cur)) 10080
        ≤ ceilDiv ((if e < next then e else next) - (if cur < s then s else cur)) 10080
          + countUnits (e - next) 10080 ∧
      ceilDiv ((if e < next then e else next) - (if cur < s then s else cur)) 10080
          + countUnits (e - next) 10080
        ≤ countUnits (e - (if cur < s then s else cur)) 10080 + 1 ∧
      (countUnits (e - next) 10080 = 0 →
        ceilDiv ((if e < next then e else next) - (if cur < s then s else cur)) 10080
          ≤ countUnits (e - (if cur < s then s else cur)) 10080)) ∧
    (ceilDiv ((if e < next then e else next) - (if cur < s then s else cur)) 10080 ≤ 0 →
      countUnits (e - (if cur < s then s else cur)) 10080 = 0
        ∧ countUnits (e - next) 10080 = 0) := by
  unfold countUnits ceilDiv
  split_ifs <;> omega

/-- The upper loop at `hour` precision (day-grouped): its total width is
    bounded below by the exact remaining lower-row width and above by that
    width plus one base cell per emitted upper cell beyond the first; an
    empty upper row means the clamped span is exhausted. -/
theorem upper_sum_hour (s e z : Int) (hol : Bool) (hfn : Int → Option HolidayInfo) (hz : 0 < z) :
    ∀ (fuel : Nat) (cur : Int) (up : List TimeaxisUnit),
      upperLoop ⟨s, e, TimeUnit.hour, z, hol, hfn⟩ fuel cur = some up →
      s < cur + 1440 →
      24 * z * countUnits (e - (if cur < s then s else cur)) 60 ≤ sumWidths up ∧
      sumWidths up + 24 * z * min 1 (up.length : Int)
        ≤ 24 * z * countUnits (e - (if cur < s then s else cur)) 60
          + 24 * z * (up.length : Int) ∧
      (up = [] → countUnits (e - (if cur < s then s else cur)) 60 = 0) := by
  intro fuel
  induction fuel with
  | zero => intro cur up hup hinv; exact absurd hup (by unfold upperLoop; simp)
  | succ n ih =>
    intro cur up hup hinv
    unfold upperLoop at hup
    by_cases hc : cur < e
    · rw [if_pos (by simp only []; exact hc)] at hup
      simp only [upperPrecision, getDayjsUnit, addUnitD, unitsInPeriod_hour, unitWidth,
        BASE_UNIT_WIDTH] at hup
      rcases hrec : upperLoop ⟨s, e, TimeUnit.hour, z, hol, hfn⟩ n (cur + 1440) with _ | rest
      · rw [hrec] at hup
        exact absurd hup (by simp)
      · rw [hrec] at hup
        simp only [Option.some_inj] at hup
        obtain ⟨ihA, ihB, ihC⟩ := ih (cur + 1440) rest hrec (by omega)
        have hM' : (if cur + 1440 < s then s else cur + 1440) = cur + 1440 :=
          if_neg (by omega)
        rw [hM'] at ihA ihB ihC
        subst hup
        have hw24 : (0:Int) < 24 * z := by omega
        by_cases hw : 0 < ceilDiv ((if e < cur + 1440 then e else cur + 1440)
            - (if cur < s then s else cur)) 60 * (24 * z)
        · rw [if_pos hw]
          have hu : 0 < ceilDiv ((if e < cur + 1440 then e else cur + 1440)
              - (if cur < s then s else cur)) 60 := by
            by_contra hnot
            push_neg at hnot
            have hle := mul_nonpos_of_nonpos_of_nonneg hnot (le_of_lt hw24)
            linarith
          obtain ⟨f1, f2, f3⟩ := (split60 s e cur (cur + 1440) hc (by omega) hinv).1 hu
          have g1 := mul_le_mul_of_nonneg_left f1 (le_of_lt hw24)
          rw [mul_add] at g1
          have g2 := mul_le_mul_of_nonneg_left f2 (le_of_lt hw24)
          rw [mul_add, mul_add, mul_one] at g2
          refine ⟨?_, ?_, ?_⟩
          · rw [sumWidths_cons]
            simp only [createTimeaxisUnit]
            linarith [g1, ihA]
          · rw [sumWidths_cons]
            simp only [createTimeaxisUnit, List.length_cons]
            push_cast
            have hm1 : min (1:Int) ((rest.length : Int) + 1) = 1 := by
              have hn : (0:Int) ≤ (rest.length : Int) := Int.natCast_nonneg _
              omega
            rw [hm1]
            rcases rest with _ | ⟨r0, rs⟩
            · have hc0 : countUnits (e - (cur + 1440)) 60 = 0 := ihC rfl
              have g3 := mul_le_mul_of_nonneg_left (f3 hc0) (le_of_lt hw24)
              simp only [sumWidths, List.map_nil, List.sum_nil, List.length_nil]
              push_cast
              linarith [g3]
            · have hm2 : min (1:Int) (((r0 :: rs).length : Int)) = 1 := by
                simp only [List.length_cons]
                push_cast
                have hn : (0:Int) ≤ (rs.length : Int) := Int.natCast_nonneg _
                omega
              rw [hm2] at ihB
              linarith [ihB, g2]
          · intro h
            exact absurd h (by simp)
        · rw [if_neg hw]
          push_neg at hw
          have hu0 : ceilDiv ((if e < cur + 1440 then e else cur + 1440)
              - (if cur < s then s else cur)) 60 ≤ 0 := by
            by_contra hnot
            push_neg at hnot
            have hpos := mul_pos hnot hw24
            linarith
          obtain ⟨hc1, hc2⟩ := (split60 s e cur (cur + 1440) hc (by omega) hinv).2 hu0
          rw [hc2] at ihA ihB
          refine ⟨?_, ?_, fun _ => hc1⟩
          · rw [hc1]
            exact ihA
          · rw [hc1]
            exact ihB
    · rw [if_neg (by simp only []; exact hc)] at hup
      simp only [Option.some_inj] at hup
      subst hup
      have h0 : countUnits (e - (if cur < s then s else cur)) 60 = 0 := by
        unfold countUnits
        split_ifs <;> omega
      refine ⟨?_, ?_, fun _ => h0⟩
      · rw [h0]
        simp [sumWidths]
      · rw [h0]
        simp [sumWidths]

/-- The upper loop at `day` precision (month-grouped), by induction along
    month starts: analogue of `upper_sum_hour`. -/
theorem upper_sum_day (s e z : Int) (hol : Bool) (hfn : Int → Option HolidayInfo) (hz : 0 < z) :
    ∀ (fuel : Nat) (cur : Int) (up : List TimeaxisUnit),
      upperLoop ⟨s, e, TimeUnit.day, z, hol, hfn⟩ fuel cur = some up →
      IsMonthStartI cur →
      s < addMonthsI cur 1 →
      24 * z * countUnits (e - (if cur < s then s else cur)) 1440 ≤ sumWidths up ∧
      sumWidths up + 24 * z * min 1 (up.length : Int)
        ≤ 24 * z * countUnits (e - (if cur < s then s else cur)) 1440
          + 24 * z * (up.length : Int) ∧
      (up = [] → countUnits (e - (if cur < s then s else cur)) 1440 = 0) := by
  intro fuel
  induction fuel with
  | zero => intro cur up hup hms hinv; exact absurd hup (by unfold upperLoop; simp)
  | succ n ih =>
    intro cur up hup hms hinv
    unfold upperLoop at hup
    by_cases hc : cur < e
    · rw [if_pos (by simp only []; exact hc)] at hup
      simp only [upperPrecision, getDayjsUnit, addUnitD, unitsInPeriod_day, unitWidth,
        BASE_UNIT_WIDTH] at hup
      obtain ⟨hlt, hms'⟩ := addMonthsI_monthStart cur hms
      have hlt' := (addMonthsI_monthStart (addMonthsI cur 1) hms').1
      rcases hrec : upperLoop ⟨s, e, TimeUnit.day, z, hol, hfn⟩ n (addMonthsI cur 1)
          with _ | rest
      · rw [hrec] at hup
        exact absurd hup (by simp)
      · rw [hrec] at hup
        simp only [Option.some_inj] at hup
        obtain ⟨ihA, ihB, ihC⟩ := ih (addMonthsI cur 1) rest hrec hms' (by omega)
        have hM' : (if addMonthsI cur 1 < s then s else addMonthsI cur 1)
            = addMonthsI cur 1 := if_neg (by omega)
        rw [hM'] at ihA ihB ihC
        subst hup
        have hw24 : (0:Int) < 24 * z := by omega
        by_cases hw : 0 < ceilDiv ((if e < addMonthsI cur 1 then e else addMonthsI cur 1)
            - (if cur < s then s else cur)) 1440 * (24 * z)
        · rw [if_pos hw]
          have hu : 0 < ceilDiv ((if e < addMonthsI cur 1 then e else addMonthsI cur 1)
              - (if cur < s then s else cur)) 1440 := by
            by_contra hnot
            push_neg at hnot
            have hle := mul_nonpos_of_nonpos_of_nonneg hnot (le_of_lt hw24)
            linarith
          obtain ⟨f1, f2, f3⟩ := (split1440 s e cur (addMonthsI cur 1) hc hlt hinv).1 hu
          have g1 := mul_le_mul_of_nonneg_left f1 (le_of_lt hw24)
          rw [mul_add] at g1
          have g2 := mul_le_mul_of_nonneg_left f2 (le_of_lt hw24)
          rw [mul_add, mul_add, mul_one] at g2
          refine ⟨?_, ?_, ?_⟩
          · rw [sumWidths_cons]
            simp only [createTimeaxisUnit]
            linarith [g1, ihA]
          · rw [sumWidths_cons]
            simp only [createTimeaxisUnit, List.length_cons]
            push_cast
            have hm1 : min (1:Int) ((rest.length : Int) + 1) = 1 := by
              have hn : (0:Int) ≤ (rest.length : Int) := Int.natCast_nonneg _
              omega
            rw [hm1]
            rcases rest with _ | ⟨r0, rs⟩
            · have hc0 : countUnits (e - addMonthsI cur 1) 1440 = 0 := ihC rfl
              have g3 := mul_le_mul_of_nonneg_left (f3 hc0) (le_of_lt hw24)
              simp only [sumWidths, List.map_nil, List.sum_nil, List.length_nil]
              push_cast
              linarith [g3]
            · have hm2 : min (1:Int) (((r0 :: rs).length : Int)) = 1 := by
                simp only [List.length_cons]
                push_cast
                have hn : (0:Int) ≤ (rs.length : Int) := Int.natCast_nonneg _
                omega
              rw [hm2] at ihB
              linarith [ihB, g2]
          · intro h
            exact absurd h (by simp)
        · rw [if_neg hw]
          push_neg at hw
          have hu0 : ceilDiv ((if e < addMonthsI cur 1 then e else addMonthsI cur 1)
              - (if cur < s then s else cur)) 1440 ≤ 0 := by
            by_contra hnot
            push_neg at hnot
            have hpos := mul_pos hnot hw24
            linarith
          obtain ⟨hc1, hc2⟩ := (split1440 s e cur (addMonthsI cur 1) hc hlt hinv).2 hu0
          rw [hc2] at ihA ihB
          refine ⟨?_, ?_, fun _ => hc1⟩
          · rw [hc1]
            exact ihA
          · rw [hc1]
            exact ihB
    · rw [if_neg (by simp only []; exact hc)] at hup
      simp only [Option.some_inj] at hup
      subst hup
      have h0 : countUnits (e - (if cur < s then s else cur)) 1440 = 0 := by
        unfold countUnits
        split_ifs <;> omega
      refine ⟨?_, ?_, fun _ => h0⟩
      · rw [h0]
        simp [sumWidths]
      · rw [h0]
        simp [sumWidths]

/-- The upper loop at `week` precision (month-grouped): analogue of
    `upper_sum_hour`. -/
theorem upper_sum_week (s e z : Int) (hol : Bool) (hfn : Int → Option HolidayInfo) (hz : 0 < z) :
    ∀ (fuel : Nat) (cur : Int) (up : List TimeaxisUnit),
      upperLoop ⟨s, e, TimeUnit.week, z, hol, hfn⟩ fuel cur = some up →
      IsMonthStartI cur →
      s < addMonthsI cur 1 →
      24 * z * countUnits (e - (if cur < s then s else cur)) 10080 ≤ sumWidths up ∧
      sumWidths up + 24 * z * min 1 (up.length : Int)
        ≤ 24 * z * countUnits (e - (if cur < s then s else cur)) 10080
          + 24 * z * (up.length : Int) ∧
      (up = [] → countUnits (e - (if cur < s then s else cur)) 10080 = 0) := by
  intro fuel
  induction fuel with
  | zero => intro cur up hup hms hinv; exact absurd hup (by unfold upperLoop; simp)
  | succ n ih =>
    intro cur up hup hms hinv
    unfold upperLoop at hup
    by_cases hc : cur < e
    · rw [if_pos (by simp only []; exact hc)] at hup
      simp only [upperPrecision, getDayjsUnit, addUnitD, unitsInPeriod_week, unitWidth,
        BASE_UNIT_WIDTH] at hup
      obtain ⟨hlt, hms'⟩ := addMonthsI_monthStart cur hms
      have hlt' := (addMonthsI_monthStart (addMonthsI cur 1) hms').1
      rcases hrec : upperLoop ⟨s, e, TimeUnit.week, z, hol, hfn⟩ n (addMonthsI cur 1)
          with _ | rest
      · rw [hrec] at hup
        exact absurd hup (by simp)
      · rw [hrec] at hup
        simp only [Option.some_inj] at hup
        obtain ⟨ihA, ihB, ihC⟩ := ih (addMonthsI cur 1) rest hrec hms' (by omega)
        have hM' : (if addMonthsI cur 1 < s then s else addMonthsI cur 1)
            = addMonthsI cur 1 := if_neg (by omega)
        rw [hM'] at ihA ihB ihC
        subst hup
        have hw24 : (0:Int) < 24 * z := by omega
        by_cases hw : 0 < ceilDiv ((if e < addMonthsI cur 1 then e else addMonthsI cur 1)
            - (if cur < s then s else cur)) 10080 * (24 * z)
        · rw [if_pos hw]
          have hu : 0 < ceilDiv ((if e < addMonthsI cur 1 then e else addMonthsI cur 1)
              - (if cur < s then s else cur)) 10080 := by
            by_contra hnot
            push_neg at hnot
            have hle := mul_nonpos_of_nonpos_of_nonneg hnot (le_of_lt hw24)
            linarith
          obtain ⟨f1, f2, f3⟩ := (split10080 s e cur (addMonthsI cur 1) hc hlt hinv).1 hu
          have g1 := mul_le_mul_of_nonneg_left f1 (le_of_lt hw24)
          rw [mul_add] at g1
          have g2 := mul_le_mul_of_nonneg_left f2 (le_of_lt hw24)
          rw [mul_add, mul_add, mul_one] at g2
          refine ⟨?_, ?_, ?_⟩
          · rw [sumWidths_cons]
            simp only [createTimeaxisUnit]
            linarith [g1, ihA]
          · rw [sumWidths_cons]
            simp only [createTimeaxisUnit, List.length_cons]
            push_cast
            have hm1 : min (1:Int) ((rest.length : Int) + 1) = 1 := by
              have hn : (0:Int) ≤ (rest.length : Int) := Int.natCast_nonneg _
              omega
            rw [hm1]
            rcases rest with _ | ⟨r0, rs⟩
            · have hc0 : countUnits (e - addMonthsI cur 1) 10080 = 0 := ihC rfl
              have g3 := mul_le_mul_of_nonneg_left (f3 hc0) (le_of_lt hw24)
              simp only [sumWidths, List.map_nil, List.sum_nil, List.length_nil]
              push_cast
              linarith [g3]
            · have hm2 : min (1:Int) (((r0 :: rs).length : Int)) = 1 := by
                simp only [List.length_cons]
                push_cast
                have hn : (0:Int) ≤ (rs.length : Int) := Int.natCast_nonneg _
                omega
              rw [hm2] at ihB
              linarith [ihB, g2]
          · intro h
            exact absurd h (by simp)
        · rw [if_neg hw]
          push_neg at hw
          have hu0 : ceilDiv ((if e < addMonthsI cur 1 then e else addMonthsI cur 1)
              - (if cur < s then s else cur)) 10080 ≤ 0 := by
            by_contra hnot
            push_neg at hnot
            have hpos := mul_pos hnot hw24
            linarith
          obtain ⟨hc1, hc2⟩ := (split10080 s e cur (addMonthsI cur 1) hc hlt hinv).2 hu0
          rw [hc2] at ihA ihB
          refine ⟨?_, ?_, fun _ => hc1⟩
          · rw [hc1]
            exact ihA
          · rw [hc1]
            exact ihB
    · rw [if_neg (by simp only []; exact hc)] at hup
      simp only [Option.some_inj] at hup
      subst hup
      have h0 : countUnits (e - (if cur < s then s else cur)) 10080 = 0 := by
        unfold countUnits
        split_ifs <;> omega
      refine ⟨?_, ?_, fun _ => h0⟩
      · rw [h0]
        simp [sumWidths]
      · rw [h0]
        simp [sumWidths]

/-- A positive span yields at least one base cell. -/
theorem countUnits_pos (a L : Int) (ha : 0 < a) (hL : 0 < L) : 1 ≤ countUnits a L := by
  unfold countUnits
  rw [if_pos ha]
  have h1 : -a / L < 0 := Int.ediv_neg' (by omega) hL
  omega

/-- C1 (amended): for the hierarchy precisions `hour`, `day` and `week`,
    every viewport with start strictly before end and every positive zoom
    level reconcile: the upper-row total width is at least the lower-row
    total width, and exceeds it by less than one base cell
    (`BASE_UNIT_WIDTH * zoom` = 24·z px) per upper cell beyond the first —
    exactly the slack the per-upper-cell `Math.ceil` can introduce.  The
    original claim fails for the `month` and `date` precisions. -/
theorem width_reconciliation_bound (s e z : Int) (p : TimeUnit) (hol : Bool)
    (hfn : Int → Option HolidayInfo) (fuelL fuelU : Nat)
    (hp : p = TimeUnit.hour ∨ p = TimeUnit.day ∨ p = TimeUnit.week)
    (hse : s < e) (hz : 1 ≤ z)
    (lo up : List TimeaxisUnit)
    (hrun : timeaxisCompute ⟨s, e, p, z, hol, hfn⟩ fuelL fuelU = some (lo, up)) :
    sumWidths lo ≤ sumWidths up ∧
    sumWidths up ≤ sumWidths lo + 24 * z * ((up.length : Int) - 1) := by
  unfold timeaxisCompute at hrun
  rcases hl : lowerLoop ⟨s, e, p, z, hol, hfn⟩ fuelL s with _ | lo'
  · rw [hl] at hrun
    exact absurd hrun (by simp)
  rcases hu : upperLoop ⟨s, e, p, z, hol, hfn⟩ fuelU
      (startOfD (getDayjsUnit (upperPrecision p)) s) with _ | up'
  · rw [hl, hu] at hrun
    exact absurd hrun (by simp)
  rw [hl, hu] at hrun
  simp only [Option.some_inj, Prod.mk.injEq] at hrun
  obtain ⟨rfl, rfl⟩ := hrun
  rcases hp with rfl | rfl | rfl
  · -- hour precision: upper row groups by day
    simp only [upperPrecision, getDayjsUnit, startOfD] at hu
    have hb0 : startOfDayI s ≤ s := by
      unfold startOfDayI dayOf
      omega
    have hinv : s < startOfDayI s + 1440 := by
      unfold startOfDayI dayOf
      omega
    obtain ⟨tA, tB, tC⟩ := upper_sum_hour s e z hol hfn (by omega) fuelU _ _ hu hinv
    have hM0 : (if startOfDayI s < s then s else startOfDayI s) = s := by
      split_ifs <;> omega
    rw [hM0] at tA tB tC
    have hlow := lower_sum_hour s e z hol hfn fuelL s _ hl
    have hcnt : 1 ≤ countUnits (e - s) 60 := countUnits_pos _ _ (by omega) (by omega)
    have hne : lo' ≠ [] ∨ up' ≠ [] := by
      right
      intro hemp
      have := tC hemp
      omega
    have hup_ne : up' ≠ [] := by
      intro hemp
      have := tC hemp
      omega
    have hlen1 : 1 ≤ (up'.length : Int) := by
      cases up' with
      | nil => exact absurd rfl hup_ne
      | cons a l =>
        simp only [List.length_cons]
        push_cast
        have hn : (0:Int) ≤ (l.length : Int) := Int.natCast_nonneg _
        omega
    have hmin : min (1:Int) (up'.length : Int) = 1 := by omega
    rw [hmin] at tB
    constructor
    · rw [hlow]
      exact tA
    · rw [hlow]
      have hexp : 24 * z * ((up'.length : Int) - 1)
          = 24 * z * (up'.length : Int) - 24 * z := by ring
      rw [hexp]
      linarith [tB]
  · -- day precision: upper row groups by month
    simp only [upperPrecision, getDayjsUnit, startOfD] at hu
    have hb0 : startOfMonthI s ≤ s := startOfMonthI_le s
    have hinv : s < addMonthsI (startOfMonthI s) 1 := lt_addMonthsI_startOfMonthI s
    obtain ⟨tA, tB, tC⟩ := upper_sum_day s e z hol hfn (by omega) fuelU _ _ hu
      (isMonthStartI_startOfMonthI s) hinv
    have hM0 : (if startOfMonthI s < s then s else startOfMonthI s) = s := by
      split_ifs <;> omega
    rw [hM0] at tA tB tC
    have hlow := lower_sum_day s e z hol hfn fuelL s _ hl
    have hcnt : 1 ≤ countUnits (e - s) 1440 := countUnits_pos _ _ (by omega) (by omega)
    have hup_ne : up' ≠ [] := by
      intro hemp
      have := tC hemp
      omega
    have hlen1 : 1 ≤ (up'.length : Int) := by
      cases up' with
      | nil => exact absurd rfl hup_ne
      | cons a l =>
        simp only [List.length_cons]
        push_cast
        have hn : (0:Int) ≤ (l.length : Int) := Int.natCast_nonneg _
        omega
    have hmin : min (1:Int) (up'.length : Int) = 1 := by omega
    rw [hmin] at tB
    constructor
    · rw [hlow]
      exact tA
    · rw [hlow]
      have hexp : 24 * z * ((up'.length : Int) - 1)
          = 24 * z * (up'.length : Int) - 24 * z := by ring
      rw [hexp]
      linarith [tB]
  · -- week precision: upper row groups by month
    simp only [upperPrecision, getDayjsUnit, startOfD] at hu
    have hb0 : startOfMonthI s ≤ s := startOfMonthI_le s
    have hinv : s < addMonthsI (startOfMonthI s) 1 := lt_addMonthsI_startOfMonthI s
    obtain ⟨tA, tB, tC⟩ := upper_sum_week s e z hol hfn (by omega) fuelU _ _ hu
      (isMonthStartI_startOfMonthI s) hinv
    have hM0 : (if startOfMonthI s < s then s else startOfMonthI s) = s := by
      split_ifs <;> omega
    rw [hM0] at tA tB tC
    have hlow := lower_sum_week s e z hol hfn fuelL s _ hl
    have hcnt : 1 ≤ countUnits (e - s) 10080 := countUnits_pos _ _ (by omega) (by omega)
    have hup_ne : up' ≠ [] := by
      intro hemp
      have := tC hemp
      omega
    have hlen1 : 1 ≤ (up'.length : Int) := by
      cases up' with
      | nil => exact absurd rfl hup_ne
      | cons a l =>
        simp only [List.length_cons]
        push_cast
        have hn : (0:Int) ≤ (l.length : Int) := Int.natCast_nonneg _
        omega
    have hmin : min (1:Int) (up'.length : Int) = 1 := by omega
    rw [hmin] at tB
    constructor
    · rw [hlow]
      exact tA
    · rw [hlow]
      have hexp : 24 * z * ((up'.length : Int) - 1)
          = 24 * z * (up'.length : Int) - 24 * z := by ring
      rw [hexp]
      linarith [tB]

/-- C1 counterexample: width reconciliation fails outside the
    hour/day/week precisions.  With precision `month` on the viewport
    2025-01-31 to 2025-03-29 at zoom 3 the lower row (three clamped
    month steps of 72px) totals 216px while the upper row (one year cell
    measured by the fractional dayjs month difference) totals 144px — the
    upper row is a full base cell narrower than the lower row, beyond any
    per-cell ceil rounding.  With precision `date` on 2024-12-25 to
    2024-12-27 at zoom 3 the lower row totals 144px (two day cells) while
    the single upper month cell is 3456px wide, because `unitsInPeriod`
    measures the `date` precision in hours. -/
theorem width_reconciliation_fails :
    (timeaxisCompute ⟨mkInstant 2025 1 31 0 0, mkInstant 2025 3 29 0 0, TimeUnit.month, 3,
        false, noHolidays⟩ 10 5).map (fun r => (sumWidths r.1, sumWidths r.2))
      = some (216, 144) ∧
    (timeaxisCompute ⟨mkInstant 2024 12 25 0 0, mkInstant 2024 12 27 0 0, TimeUnit.date, 3,
        false, noHolidays⟩ 10 5).map (fun r => (sumWidths r.1, sumWidths r.2, r.2.length))
      = some (144, 3456, 1) ∧
    mkInstant 2025 1 31 0 0 < mkInstant 2025 3 29 0 0 ∧
    mkInstant 2024 12 25 0 0 < mkInstant 2024 12 27 0 0 := by
  refine ⟨by decide, by decide, by decide, by decide⟩

/-- Witness of `width_reconciliation_bound` on the one-hour viewport
    `[0, 60)` at zoom 1: both rows total 24px. -/
theorem width_reconciliation_bound_witness :
    sumWidths (((timeaxisCompute ⟨0, 60, TimeUnit.hour, 1, false, noHolidays⟩ 2 2).getD
        ([], [])).1)
      ≤ sumWidths (((timeaxisCompute ⟨0, 60, TimeUnit.hour, 1, false, noHolidays⟩ 2 2).getD
        ([], [])).2) ∧
    sumWidths (((timeaxisCompute ⟨0, 60, TimeUnit.hour, 1, false, noHolidays⟩ 2 2).getD
        ([], [])).2)
      ≤ sumWidths (((timeaxisCompute ⟨0, 60, TimeUnit.hour, 1, false, noHolidays⟩ 2 2).getD
        ([], [])).1)
        + 24 * 1 * ((((((timeaxisCompute ⟨0, 60, TimeUnit.hour, 1, false, noHolidays⟩ 2 2).getD
        ([], [])).2).length : Int)) - 1) :=
  width_reconciliation_bound 0 60 1 TimeUnit.hour false noHolidays 2 2 (Or.inl rfl)
    (by decide) (by decide) _ _ (by rfl)

/-- Witness of `inverted_range_test` on the empty viewport `[0, 0)` at `day`
    precision. -/
theorem inverted_range_test_witness :
    ∃ upperUnits, timeaxisCompute ⟨0, 0, TimeUnit.day, 3, false, noHolidays⟩ 1 2
      = some ([], upperUnits) :=
  inverted_range_test 0 0 TimeUnit.day 3 false noHolidays (by decide) 1 2
    (by decide) (by decide)

